import Mathlib

/-!
Verification development for the ArrowClusterEngine of arrow-supercluster
(packages/arrow-supercluster/src/arrow-cluster-engine.ts).

Shallow embedding conventions:
* JS doubles are modeled as exact rationals (ℚ).  The transcendental or
  rounding-dependent projection helpers (latY, xLng, yLat, Math.fround) are
  not rationally definable, so they are abstract parameters bundled in a
  Proj record; lngX is exact rational arithmetic and is defined concretely.
* Typed-array reads out of range yield undefined/NaN in JS; such values are
  modeled as none : Option ℚ, and any comparison against them is false,
  matching NaN comparison semantics.
* The flat stride-6 data array of the engine is modeled as a List Node; all
  accesses in the source are stride-aligned.
* The KDBush spatial index is external to the repository; per the stated
  contract it is modeled as a linear scan returning indices in ascending
  order (its result order is unspecified).  The engine constructs trees over
  Float32Array coordinates, so queries compare reduced coordinates fr x
  against the query point.
* JS integer operators: percent is remainder truncated toward zero
  (Int.tmod); arithmetic shift right by 5 is floor division by 32 for the
  magnitudes occurring here (Int.fdiv).
-/

set_option maxHeartbeats 1000000

namespace ArrowSupercluster

/-- JS percent on integers: remainder truncated toward zero. -/
def jsRem (a b : ℤ) : ℤ := Int.tmod a b

/-- JS arithmetic shift right by 5 bits: floor division by 32
(exact for magnitudes below 2^31, which covers all encoded ids here). -/
def jsShr5 (a : ℤ) : ℤ := Int.fdiv a 32

/-- Truncation toward zero of a rational (JS double-to-integer rounding used
by the JS percent operator on doubles). -/
def qtrunc (q : ℚ) : ℤ := if 0 ≤ q then ⌊q⌋ else ⌈q⌉

/-- JS percent on doubles, modeled exactly over ℚ: remainder toward zero. -/
def jsModQ (a b : ℚ) : ℚ := a - b * (qtrunc (a / b) : ℚ)

/-- Abstract projection and rounding helpers from mercator.ts and the
Float32 coordinate reduction performed by the KDBush constructor.  latY,
xLng, yLat involve transcendental functions and fr is IEEE-754 float32
rounding; none are rationally definable, so they are parameters of the
model.  lngX is defined concretely below. -/
structure Proj where
  latY : ℚ → ℚ
  xLng : ℚ → ℚ
  yLat : ℚ → ℚ
  fr : ℚ → ℚ

/-- mercator.ts lngX: lng / 360 + 0.5 (exact rational arithmetic). -/
def lngX (lng : ℚ) : ℚ := lng / 360 + 1 / 2

/-- One stride-6 record of the flat data array:
[x, y, zoom (OFFSET_ZOOM, Infinity = none), id (OFFSET_ID),
parent (OFFSET_PARENT), num (OFFSET_NUM)]. -/
structure Node where
  x : ℚ
  y : ℚ
  zoom : Option ℤ
  id : ℤ
  parent : ℤ
  num : ℕ
deriving DecidableEq, Repr, Inhabited

/-- Read a node of the flat array (in-range JS read). -/
def nget (d : List Node) (j : ℕ) : Node := d.getD j default

/-- JS read of the flat array at a possibly negative or out-of-range
node index: undefined (none) when out of range. -/
def ngetZ (d : List Node) (j : ℤ) : Option Node :=
  if h : 0 ≤ j ∧ j.toNat < d.length then some (d.get ⟨j.toNat, h.2⟩) else none

/-- The comparison data[k + OFFSET_ZOOM] <= zoom, where Infinity (none)
compares false. -/
def zle (z : Option ℤ) (w : ℤ) : Bool :=
  match z with
  | none => false
  | some v => decide (v ≤ w)

/-- One entry of the parallel output buffers (positions pair, pointCounts,
ids, isCluster).  The four typed arrays are always written in lockstep, so a
single entry record models them faithfully.  Position components are
Option ℚ: none models a NaN/undefined double. -/
structure OutEntry where
  posx : Option ℚ
  posy : Option ℚ
  cnt : ℕ
  id : ℤ
  isC : Bool
deriving DecidableEq, Repr, Inhabited

/-- A freshly zero-filled buffer entry (new Float64Array etc. are
zero-initialized in JS). -/
def entry0 : OutEntry := ⟨some 0, some 0, 0, 0, false⟩

/-- The ArrowClusterEngine state: options, numPoints, the per-zoom levels
(trees and treeData are built in lockstep, so one map models both; none
models an unset index of the sparse JS arrays), the saved coordinate
buffer, and the reusable output buffer of getClusters. -/
structure Engine where
  radius : ℚ
  extent : ℚ
  minZoom : ℕ
  maxZoom : ℕ
  minPoints : ℕ
  numPoints : ℕ
  treeData : ℤ → Option (List Node)
  coordValues : Option (List (Option ℚ))
  bufEntries : List OutEntry

/-- Constructor state (no load yet). -/
def mkEngine (radius extent : ℚ) (minZoom maxZoom minPoints : ℕ) : Engine :=
  { radius := radius, extent := extent, minZoom := minZoom,
    maxZoom := maxZoom, minPoints := minPoints, numPoints := 0,
    treeData := fun _ => none, coordValues := none, bufEntries := [] }

/-- Constructor with the default options of the source. -/
def defaultEngine : Engine := mkEngine 40 512 0 16 2

/-- An Arrow table at the boundary used by load: its row count and, when
present, the flat interleaved coordinate buffer of the geometry column
(length 2*numRows; none components model NaN doubles). -/
structure Table where
  numRows : ℕ
  geom : Option (List (Option ℚ))

/-- JS read of a flat Float64Array at integer index k: undefined (hence NaN
when used) out of range. -/
def fget (c : List (Option ℚ)) (k : ℤ) : Option ℚ :=
  if h : 0 ≤ k ∧ k.toNat < c.length then c.get ⟨k.toNat, h.2⟩ else none

/-- KDBush within(x, y, r): indices of all items with squared distance at
most r^2 from the query point, in ascending order (order unspecified by the
index contract).  Stored tree coordinates are the Float32 reductions fr of
the data coordinates. -/
def withinIdx (P : Proj) (d : List Node) (x y r : ℚ) : List ℕ :=
  (List.range d.length).filter fun j =>
    decide ((P.fr (nget d j).x - x) ^ 2 + (P.fr (nget d j).y - y) ^ 2 ≤ r ^ 2)

/-- KDBush within at a possibly undefined query point: NaN comparisons are
all false, so an undefined center finds nothing. -/
def withinIdxOpt (P : Proj) (d : List Node) (x y : Option ℚ) (r : ℚ) : List ℕ :=
  match x, y with
  | some x, some y => withinIdx P d x y r
  | _, _ => []

/-- KDBush range(minX, minY, maxX, maxY): indices of items inside the
closed box, ascending order. -/
def rangeIdx (P : Proj) (d : List Node) (minX minY maxX maxY : ℚ) : List ℕ :=
  (List.range d.length).filter fun j =>
    decide (minX ≤ P.fr (nget d j).x ∧ P.fr (nget d j).x ≤ maxX ∧
      minY ≤ P.fr (nget d j).y ∧ P.fr (nget d j).y ≤ maxY)

/-- The initial flat data array built by load from the Arrow coordinates:
skip rows excluded by filterMask (an absent mask bit is undefined, hence the
row is skipped, as in JS) and rows with NaN coordinates; otherwise emit
[fround(lngX lng), fround(latY lat), Infinity, rowIndex, -1, 1]. -/
def leafData (P : Proj) (coords : List (Option ℚ)) (mask : Option (List Bool))
    (numRows : ℕ) : List Node :=
  (List.range numRows).filterMap fun i =>
    if (match mask with
        | some m => !m.getD i false
        | none => false) then none
    else
      match fget coords (2 * i), fget coords (2 * i + 1) with
      | some lng, some lat =>
          some ⟨P.fr (lngX lng), P.fr (P.latY lat), none, (i : ℤ), -1, 1⟩
      | _, _ => none

/-- The body of the neighbor loop of the merge branch of _cluster (lines
380-390): skip already-processed neighbors, otherwise mark them, accumulate
the weighted centroid and assign their parent. -/
def mergeNbrStep (z : ℕ) (cid : ℤ) (t : List Node × ℚ × ℚ) (k : ℕ) :
    List Node × ℚ × ℚ :=
  let ndk := nget t.1 k
  if zle ndk.zoom z then t
  else
    (t.1.set k { ndk with zoom := some (z : ℤ), parent := cid },
     t.2.1 + ndk.x * ndk.num, t.2.2 + ndk.y * ndk.num)

/-- The body of the neighbor loop of the no-merge branch of _cluster (lines
405-410): mark each still-unprocessed neighbor and append a copy of it. -/
def copyNbrStep (z : ℕ) (t : List Node × List Node) (k : ℕ) :
    List Node × List Node :=
  let ndk := nget t.1 k
  if zle ndk.zoom z then t
  else
    let ndk' := { ndk with zoom := some (z : ℤ) }
    (t.1.set k ndk', t.2 ++ [ndk'])

/-- One iteration of the main loop of _cluster (arrow-cluster-engine.ts
lines 358-413) at node index i, acting on the pair
(data being mutated in place, nextData accumulated so far). -/
def clusterStep (P : Proj) (z : ℕ) (r : ℚ) (minPts N : ℕ)
    (s : List Node × List Node) (i : ℕ) : List Node × List Node :=
  let d := s.1
  let nd := nget d i
  if zle nd.zoom z then s
  else
    -- data[i + OFFSET_ZOOM] = zoom
    let d := d.set i { nd with zoom := some (z : ℤ) }
    let x := nd.x
    let y := nd.y
    let nbrs := withinIdx P d x y r
    let numOrigin := nd.num
    -- numPoints: weight of the origin plus weights of still-unprocessed
    -- neighbors (data[k + OFFSET_ZOOM] > zoom)
    let numPts := numOrigin +
      ((nbrs.filter fun k => !zle (nget d k).zoom z).map fun k =>
        (nget d k).num).sum
    if numOrigin < numPts ∧ minPts ≤ numPts then
      -- encoded cluster id: (i << 5) + (zoom + 1) + this.numPoints
      let cid : ℤ := 32 * i + ((z : ℤ) + 1) + N
      -- weighted-centroid accumulation, marking and re-parenting each
      -- still-unprocessed neighbor
      let m := nbrs.foldl (mergeNbrStep z cid) (d, x * numOrigin, y * numOrigin)
      -- data[i + OFFSET_PARENT] = id
      let d2 := m.1.set i { nget m.1 i with parent := cid }
      (d2, s.2 ++ [⟨m.2.1 / numPts, m.2.2 / numPts, none, cid, -1, numPts⟩])
    else
      -- keep the point as is, marked (its zoom was already set above)
      let s1 := (d, s.2 ++ [nget d i])
      if 1 < numPts then
        -- mark every still-unprocessed neighbor and copy it unchanged
        nbrs.foldl (copyNbrStep z) s1
      else s1

/-- _cluster: one full pass over the data of Level(z+1) at target zoom z,
returning (the in-place mutated input array, the nextData of Level(z)). -/
def clusterPass (P : Proj) (radius extent : ℚ) (minPts N : ℕ)
    (d : List Node) (z : ℕ) : List Node × List Node :=
  let r := radius / (extent * 2 ^ z)
  (List.range d.length).foldl (clusterStep P z r minPts N) (d, [])

/-- The descending pass loop of load: given the still-unmutated data of
level top, run k passes producing levels top-1, ..., top-k.  Returns the
sparse level map; each stored level is the final (mutated) array. -/
def buildLevels (P : Proj) (radius extent : ℚ) (minPts N : ℕ) :
    (k : ℕ) → (top : ℕ) → (d : List Node) → (ℤ → Option (List Node))
  | 0, top, d => fun z => if z = (top : ℤ) then some d else none
  | k + 1, top, d =>
      let res := clusterPass P radius extent minPts N d (top - 1)
      let rest := buildLevels P radius extent minPts N k (top - 1) res.2
      fun z => if z = (top : ℤ) then some res.1 else rest z

/-- load (arrow-cluster-engine.ts lines 58-121).  Returns the state after
the call together with a thrown flag: when the geometry column is absent
the method throws AFTER having already assigned this.numPoints from the new
table, leaving the rest of the previous state in place. -/
def load (P : Proj) (st : Engine) (tbl : Table) (mask : Option (List Bool)) :
    Engine × Bool :=
  let st := { st with numPoints := tbl.numRows }
  match tbl.geom with
  | none => (st, true)
  | some coords =>
      let data := leafData P coords mask tbl.numRows
      let levels := buildLevels P st.radius st.extent st.minPoints
        st.numPoints (st.maxZoom + 1 - st.minZoom) (st.maxZoom + 1) data
      let maxItems := data.length
      ({ st with
          coordValues := some coords,
          treeData := levels,
          bufEntries := List.replicate maxItems entry0 }, false)

/-- indexedPointCount: node count of the top level, or 0 before a load. -/
def indexedPointCount (st : Engine) : ℕ :=
  match st.treeData ((st.maxZoom : ℤ) + 1) with
  | some topData => topData.length
  | none => 0

/-- _getOriginZoom: (clusterId - this.numPoints) percent 32 (JS remainder,
sign of the dividend; -0 indexes arrays like 0, as does Int.tmod = 0). -/
def getOriginZoom (st : Engine) (clusterId : ℤ) : ℤ :=
  jsRem (clusterId - st.numPoints) 32

/-- _getOriginId: (clusterId - this.numPoints) >> 5. -/
def getOriginId (st : Engine) (clusterId : ℤ) : ℤ :=
  jsShr5 (clusterId - st.numPoints)

/-- _getChildIndices (lines 275-302): decode the id, look up the origin
level, guard originId * STRIDE >= data.length (the model's data holds whole
nodes, so the guard is data.length <= originId), run the radius query at
the origin node's coordinates (a negative originId reads undefined
coordinates, and the query then finds nothing), and keep neighbors whose
parent is the cluster id. -/
def getChildIndices (P : Proj) (st : Engine) (clusterId : ℤ) :
    List ℕ × List Node :=
  let originId := getOriginId st clusterId
  let originZoom := getOriginZoom st clusterId
  match st.treeData originZoom with
  | none => ([], [])
  | some d =>
      if (d.length : ℤ) ≤ originId then ([], [])
      else
        let r := st.radius / (st.extent * (2 : ℚ) ^ (originZoom - 1))
        let nbrs := withinIdxOpt P d ((ngetZ d originId).map Node.x)
          ((ngetZ d originId).map Node.y) r
        (nbrs.filter fun nid => (nget d nid).parent == clusterId, d)

/-- Read this.coordValues at flat index k (undefined/NaN when out of range
or before any load). -/
def cfget (st : Engine) (k : ℤ) : Option ℚ :=
  match st.coordValues with
  | none => none
  | some c => fget c k

/-- One output entry for node j of data d: a cluster (numPts > 1) gets the
inverse-projected centroid; an individual point reads its original lng/lat
directly from the caller's coordinate buffer. -/
def mkEntry (P : Proj) (st : Engine) (d : List Node) (j : ℕ) : OutEntry :=
  let nd := nget d j
  if 1 < nd.num then
    ⟨some (P.xLng nd.x), some (P.yLat nd.y), nd.num, nd.id, true⟩
  else
    ⟨cfget st (2 * nd.id), cfget st (2 * nd.id + 1), nd.num, nd.id, false⟩

/-- getChildren (lines 198-226): empty output when no child indices,
otherwise fresh (non-buffer) entries for each child. -/
def getChildren (P : Proj) (st : Engine) (clusterId : ℤ) : List OutEntry :=
  let q := getChildIndices P st clusterId
  q.1.map (mkEntry P st q.2)

/-- One iteration of the children loop of _appendLeafIndices, threading
(result, skipped, returned) where the flag models the early returns once
result.length >= limit; rec is the recursive descent into a child cluster
(fixed limit and offset, varying accumulator, id and skipped). -/
def leafChildStep (d : List Node) (limit : ℕ∞) (offset : ℕ)
    (rec : List ℤ → ℤ → ℕ → List ℤ × ℕ)
    (t : List ℤ × ℕ × Bool) (k : ℕ) : List ℤ × ℕ × Bool :=
  if t.2.2 then t
  else
    let nd := nget d k
    if 1 < nd.num then
      if t.2.1 + nd.num ≤ offset then (t.1, t.2.1 + nd.num, false)
      else
        let r2 := rec t.1 nd.id t.2.1
        (r2.1, r2.2, decide (limit ≤ (r2.1.length : ℕ∞)))
    else
      if t.2.1 < offset then (t.1, t.2.1 + 1, false)
      else
        let res' := t.1 ++ [nd.id]
        (res', t.2.1, decide (limit ≤ (res'.length : ℕ∞)))

/-- _appendLeafIndices (lines 312-348).  The source recurses on child
cluster ids; the model adds a fuel argument consumed at each recursive
descent.  Valid ids of one load descend through strictly increasing origin
zooms bounded by maxZoom + 1, so the fuel passed by getLeaves below is
never exhausted for them.  The early returns once result.length >= limit
are modeled by a stop flag threaded through the fold.  limit : ℕ∞ models
the default Infinity. -/
def appendLeafIndices (P : Proj) (st : Engine) :
    ℕ → List ℤ → ℤ → ℕ∞ → ℕ → ℕ → List ℤ × ℕ
  | 0, res, _, _, _, skipped => (res, skipped)
  | fuel + 1, res, clusterId, limit, offset, skipped =>
    let q := getChildIndices P st clusterId
    let t := q.1.foldl
      (leafChildStep q.2 limit offset
        (fun res cid sk => appendLeafIndices P st fuel res cid limit offset sk))
      (res, skipped, false)
    (t.1, t.2.1)

/-- getLeaves (lines 231-235) with limit = Infinity and offset = 0 as the
defaults.  Fuel maxZoom + 2 bounds the recursion depth for ids of the
current load. -/
def getLeaves (P : Proj) (st : Engine) (clusterId : ℤ)
    (limit : ℕ∞ := ⊤) (offset : ℕ := 0) : List ℤ :=
  (appendLeafIndices P st (st.maxZoom + 2) [] clusterId limit offset 0).1

/-- The while loop of getClusterExpansionZoom (lines 243-253).  The loop
guard bounds expansionZoom by maxZoom, and expansionZoom increases by one
per iteration, so for any integer id (whose decoded origin zoom lies in
(-32, 32)) the iteration count is below maxZoom + 40 and the fuel below
never runs out. -/
def expLoop (P : Proj) (st : Engine) : ℕ → ℤ → ℤ → ℤ
  | 0, _, e => e
  | fuel + 1, clusterId, e =>
    if e ≤ (st.maxZoom : ℤ) then
      let q := getChildIndices P st clusterId
      let e' := e + 1
      if q.1.length ≠ 1 then e'
      else
        let nd := nget q.2 (q.1.getD 0 0)
        if 1 < nd.num then expLoop P st fuel nd.id e' else e'
    else e

/-- getClusterExpansionZoom (lines 240-256). -/
def getClusterExpansionZoom (P : Proj) (st : Engine) (clusterId : ℤ) : ℤ :=
  expLoop P st (st.maxZoom + 40) clusterId (getOriginZoom st clusterId - 1)

/-- _limitZoom: clamp floor(zoom) into [minZoom, maxZoom + 1]. -/
def limitZoom (st : Engine) (zoom : ℚ) : ℤ :=
  max (st.minZoom : ℤ) (min ⌊zoom⌋ ((st.maxZoom : ℤ) + 1))

/-- Longitude normalization of getClusters:
(((lng + 180) percent 360) + 360) percent 360 - 180. -/
def normLng (lng : ℚ) : ℚ :=
  jsModQ (jsModQ (lng + 180) 360 + 360) 360 - 180

/-- The straight (non-split) body of getClusters: range query on the level
for the clamped zoom, entries written into the reusable buffer, the
returned output being a view of the entries just written. -/
def getClustersBody (P : Proj) (st : Engine)
    (minLng minLat maxLng maxLat : ℚ) (zoom : ℚ) : Engine × List OutEntry :=
  let z := limitZoom st zoom
  match st.treeData z with
  | none => (st, [])
  | some d =>
      let resultIds := rangeIdx P d (lngX minLng) (P.latY maxLat)
        (lngX maxLng) (P.latY minLat)
      let ents := resultIds.map (mkEntry P st d)
      ({ st with bufEntries := ents ++ st.bufEntries.drop ents.length }, ents)

/-- getClusters (lines 126-193) with explicit recursion fuel for the
antimeridian split; the two sub-boxes of a split never split again, so fuel
2 is never exhausted.  The returned entry list is what a caller reading the
returned views observes at return time.  In the split branch _mergeOutputs
copies from the two view objects AFTER both sub-queries have written the
shared buffer, so the eastern copy reads the buffer as overwritten by the
western sub-query (this aliasing is modeled by taking the merged prefix
from the final buffer, not from the eastern sub-result). -/
def getClustersF (P : Proj) :
    ℕ → Engine → ℚ × ℚ × ℚ × ℚ → ℚ → Engine × List OutEntry
  | 0, st, _, _ => (st, [])
  | fuel + 1, st, (b0, b1, b2, b3), zoom =>
    let minLng := normLng b0
    let minLat := max (-90) (min 90 b1)
    let maxLng := if b2 = 180 then 180 else normLng b2
    let maxLat := max (-90) (min 90 b3)
    if 360 ≤ b2 - b0 then
      getClustersBody P st (-180) minLat 180 maxLat zoom
    else if maxLng < minLng then
      let eastern := getClustersF P fuel st (minLng, minLat, 180, maxLat) zoom
      let western := getClustersF P fuel eastern.1 (-180, minLat, maxLng, maxLat) zoom
      (western.1, western.1.bufEntries.take eastern.2.length ++ western.2)
    else
      getClustersBody P st minLng minLat maxLng maxLat zoom

/-- getClusters with the fuel fixed at 2 (one possible split level). -/
def getClusters (P : Proj) (st : Engine) (bbox : ℚ × ℚ × ℚ × ℚ) (zoom : ℚ) :
    Engine × List OutEntry :=
  getClustersF P 2 st bbox zoom

/-! Auxiliary notions used by the statements and proofs. -/

/-- The indices of the nodes of d whose parent field equals cid (the set a
parent-filtered radius query can recover, in ascending index order). -/
def clusterSet (d : List Node) (cid : ℤ) : List ℕ :=
  (List.range d.length).filter fun j => (nget d j).parent == cid

/-- Total weight of the nodes already processed (zoom field at most z)
during the pass at target zoom z. -/
def msum (z : ℕ) (d : List Node) : ℕ :=
  (((List.range d.length).filter fun j => zle (nget d j).zoom z).map fun j =>
    (nget d j).num).sum

/-- Take at most limit elements, where limit = top models Infinity. -/
def etake (limit : ℕ∞) (l : List ℤ) : List ℤ :=
  match limit with
  | ⊤ => l
  | (n : ℕ) => l.take n

/-- The depth-first leaf traversal order of a cluster id: children in query
order, clusters replaced by their own traversal, leaves contributing their
row index.  The reference order against which getLeaves paginates. -/
def dfsLeaves (P : Proj) (st : Engine) : ℕ → ℤ → List ℤ
  | 0, _ => []
  | fuel + 1, clusterId =>
    let q := getChildIndices P st clusterId
    q.1.flatMap fun k =>
      let nd := nget q.2 k
      if 1 < nd.num then dfsLeaves P st fuel nd.id else [nd.id]

/-- Modelled from the spec (section 4.5, getClusterExpansionZoom): starting
at expansionZoom = originZoom - 1, repeatedly increment expansionZoom and
fetch children of the current cluster id; stop and return expansionZoom as
soon as the child count is not exactly 1 or the single child is a leaf; if
the single child is a cluster, descend into it and continue.  The spec
states no iteration bound, so the recursion carries fuel; on ids of the
current load it stops long before the fuel used below runs out. -/
def expansionZoomSpecLoop (P : Proj) (st : Engine) : ℕ → ℤ → ℤ → ℤ
  | 0, _, e => e
  | fuel + 1, clusterId, e =>
    let q := getChildIndices P st clusterId
    let e' := e + 1
    if q.1.length ≠ 1 then e'
    else
      let nd := nget q.2 (q.1.getD 0 0)
      if 1 < nd.num then expansionZoomSpecLoop P st fuel nd.id e' else e'

/-- Modelled from the spec: the full getClusterExpansionZoom procedure. -/
def expansionZoomSpec (P : Proj) (st : Engine) (clusterId : ℤ) : ℤ :=
  expansionZoomSpecLoop P st (st.maxZoom + 40) clusterId
    (getOriginZoom st clusterId - 1)

/-! Concrete instances used to evaluate the model on closed inputs.  The
identity projection satisfies the fr-exactness hypothesis of the general
theorems; the negated-latitude projection is order-reversing like the real
web-mercator latY, as the box queries of getClusters require. -/

/-- A projection whose helpers are all the identity (fr x = x models exact
float32-representable coordinates). -/
def idProj : Proj := ⟨id, id, id, id⟩

/-- A projection with latY (and its inverse yLat) = negation: decreasing in
latitude, as the box queries of getClusters assume. -/
def negProj : Proj := ⟨fun q => -q, id, fun q => -q, id⟩

/-- radius 1, extent 1, minZoom 0, maxZoom 2, minPoints 2. -/
def engW : Engine := mkEngine 1 1 0 2 2

/-- Two rows, both at lng -180 lat 0 (projected x = 0, y = 0). -/
def tblW : Table := ⟨2, some [some (-180), some 0, some (-180), some 0]⟩

/-- The engine after loading tblW: one cluster (id 5, weight 2) from zoom 2
down, two leaves at level 3. -/
def stW : Engine := (load idProj engW tblW none).1

/-- The cluster node of stW at level 2. -/
def ndW : Node := ⟨0, 0, some 1, 5, -1, 2⟩

/-- radius 1, extent 1, minZoom 0, maxZoom 0, minPoints 2. -/
def engC : Engine := mkEngine 1 1 0 0 2

/-- Three coincident rows. -/
def tblC : Table :=
  ⟨3, some [some (-180), some 0, some (-180), some 0, some (-180), some 0]⟩

/-- tblC loaded under the mask [false, true, true]: rows 1 and 2 are
indexed (indexedPointCount 2) while this.numPoints is set to 3. -/
def stC : Engine := (load idProj engC tblC (some [false, true, true])).1

/-- The cluster node of stC at level 0: id 32 * 0 + (0 + 1) + 3 = 4. -/
def ndC : Node := ⟨0, 0, none, 4, -1, 2⟩

/-- radius 1/100, extent 1, minZoom 0, maxZoom 0, minPoints 2. -/
def engB : Engine := mkEngine (1 / 100) 1 0 0 2

/-- One row each side of the antimeridian: lng 175 and lng -175. -/
def tblB : Table := ⟨2, some [some 175, some 0, some (-175), some 0]⟩

/-- tblB loaded with the order-reversing projection: two far-apart leaves
that never cluster. -/
def stB : Engine := (load negProj engB tblB none).1

/-- A table whose geometry column is absent: loading it throws. -/
def tblF : Table := ⟨3, none⟩

/-- A two-point data array (both points at the origin, weights 1) used to
exercise one _cluster iteration in isolation. -/
def sC5 : List Node × List Node :=
  ([⟨0, 0, none, 0, -1, 1⟩, ⟨0, 0, none, 1, -1, 1⟩], [])

/-- sC5 after the center marking of iteration i = 0 at target zoom 0. -/
def d1C5 : List Node := [⟨0, 0, some 0, 0, -1, 1⟩, ⟨0, 0, none, 1, -1, 1⟩]

/-! Basic lemmas about flat-array reads and writes. -/

theorem nget_set_eq (d : List Node) (i : ℕ) (v : Node) (h : i < d.length) :
    nget (d.set i v) i = v := by
  simp [nget, List.getD_eq_getElem?_getD, List.getElem?_set_self h]

theorem nget_set_ne (d : List Node) (i j : ℕ) (v : Node) (h : i ≠ j) :
    nget (d.set i v) j = nget d j := by
  simp [nget, List.getD_eq_getElem?_getD, List.getElem?_set_ne h]

theorem nget_mem (d : List Node) (j : ℕ) (h : j < d.length) :
    nget d j ∈ d := by
  have : d.getD j default = d[j] := by
    simp [List.getD_eq_getElem?_getD, List.getElem?_eq_getElem h]
  rw [nget, this]
  exact List.getElem_mem h

theorem mem_iff_nget (d : List Node) (nd : Node) :
    nd ∈ d ↔ ∃ j, j < d.length ∧ nd = nget d j := by
  constructor
  · intro h
    rcases List.getElem_of_mem h with ⟨j, hj, he⟩
    exact ⟨j, hj, by
      rw [nget, List.getD_eq_getElem?_getD, List.getElem?_eq_getElem hj]
      exact he.symm⟩
  · rintro ⟨j, hj, rfl⟩
    exact nget_mem d j hj

/-- Sum of a function over the ascending filtered index list, as a Finset
sum over the range. -/
theorem listFilterMapSum (n : ℕ) (p : ℕ → Bool) (f : ℕ → ℕ) :
    (((List.range n).filter p).map f).sum =
      ∑ j ∈ Finset.range n, if p j then f j else 0 := by
  induction n with
  | zero => simp
  | succ n ih =>
      rw [List.range_succ, List.filter_append, List.map_append,
        List.sum_append, Finset.sum_range_succ, ih]
      by_cases h : p n <;> simp [h]

/-- withinIdx depends only on the length and the coordinates. -/
theorem withinIdx_congr (P : Proj) (d1 d2 : List Node) (x y r : ℚ)
    (hlen : d1.length = d2.length)
    (h : ∀ j, (nget d1 j).x = (nget d2 j).x ∧ (nget d1 j).y = (nget d2 j).y) :
    withinIdx P d1 x y r = withinIdx P d2 x y r := by
  unfold withinIdx
  rw [hlen]
  exact List.filter_congr fun j _ => by rw [(h j).1, (h j).2]

theorem withinIdx_mem_lt (P : Proj) (d : List Node) (x y r : ℚ) (k : ℕ)
    (hk : k ∈ withinIdx P d x y r) : k < d.length := by
  have := List.mem_filter.mp hk
  exact List.mem_range.mp this.1

theorem withinIdx_nodup (P : Proj) (d : List Node) (x y r : ℚ) :
    (withinIdx P d x y r).Nodup :=
  List.Nodup.filter _ (List.nodup_range d.length)

theorem clusterSet_mem_lt (d : List Node) (cid : ℤ) (j : ℕ)
    (hj : j ∈ clusterSet d cid) : j < d.length := by
  have := List.mem_filter.mp hj
  exact List.mem_range.mp this.1

theorem clusterSet_nodup (d : List Node) (cid : ℤ) :
    (clusterSet d cid).Nodup :=
  List.Nodup.filter _ (List.nodup_range d.length)

theorem mem_clusterSet (d : List Node) (cid : ℤ) (j : ℕ) :
    j ∈ clusterSet d cid ↔ j < d.length ∧ (nget d j).parent = cid := by
  simp [clusterSet, List.mem_filter, List.mem_range]

/-- Sum over the indicator of list membership inside a range. -/
theorem sum_range_ite_mem (n : ℕ) (K : List ℕ) (hK : K.Nodup) (f : ℕ → ℕ)
    (hsub : ∀ j ∈ K, j < n) :
    (∑ j ∈ Finset.range n, if j ∈ K then f j else 0) = (K.map f).sum := by
  have h0 : (∑ j ∈ Finset.range n, if j ∈ K then f j else 0)
      = ∑ j ∈ Finset.range n, if j ∈ K.toFinset then f j else 0 :=
    Finset.sum_congr rfl fun j _ => by simp [List.mem_toFinset]
  have h1 : Finset.range n ∩ K.toFinset = K.toFinset := by
    rw [Finset.inter_eq_right]
    intro j hj
    exact Finset.mem_range.mpr (hsub j (List.mem_toFinset.mp hj))
  rw [h0, Finset.sum_ite_mem, h1, List.sum_toFinset f hK]

/-- How the processed-weight bookkeeping changes when a step newly
processes exactly the indices of K, preserving weights. -/
theorem msum_update (z : ℕ) (d dn : List Node) (K : List ℕ) (hK : K.Nodup)
    (hlen : dn.length = d.length)
    (hout : ∀ j, j ∉ K → nget dn j = nget d j)
    (hin : ∀ j ∈ K, j < d.length ∧ zle (nget d j).zoom z = false ∧
      zle (nget dn j).zoom z = true ∧ (nget dn j).num = (nget d j).num) :
    msum z dn = msum z d + (K.map fun j => (nget d j).num).sum := by
  unfold msum
  rw [hlen, listFilterMapSum, listFilterMapSum]
  have key : ∀ j ∈ Finset.range d.length,
      (if zle (nget dn j).zoom z then (nget dn j).num else 0)
        = (if zle (nget d j).zoom z then (nget d j).num else 0)
          + (if j ∈ K then (nget d j).num else 0) := by
    intro j _
    by_cases hjK : j ∈ K
    · obtain ⟨-, h1, h2, h3⟩ := hin j hjK
      simp [hjK, h1, h2, h3]
    · rw [hout j hjK]
      simp [hjK]
  rw [Finset.sum_congr rfl key, Finset.sum_add_distrib,
    sum_range_ite_mem d.length K hK _ fun j hj => (hin j hj).1]

/-- msum depends only on the length and the per-index zoom and num. -/
theorem msum_congr (z : ℕ) (d dn : List Node) (hlen : dn.length = d.length)
    (h : ∀ j, nget dn j = nget d j) : msum z dn = msum z d := by
  unfold msum
  rw [hlen]
  have hf : (List.range d.length).filter (fun j => zle (nget dn j).zoom z)
      = (List.range d.length).filter fun j => zle (nget d j).zoom z :=
    List.filter_congr fun j _ => by rw [h j]
  rw [hf]
  congr 1
  apply List.map_congr_left
  intro j _
  rw [h j]

/-- A nodup list containing two distinct elements has length at least 2. -/
theorem two_le_length_of_nodup (l : List ℕ) (hl : l.Nodup) (a b : ℕ)
    (ha : a ∈ l) (hb : b ∈ l) (hab : a ≠ b) : 2 ≤ l.length := by
  have hsub : ({a, b} : Finset ℕ) ⊆ l.toFinset := by
    intro x hx
    rcases Finset.mem_insert.mp hx with h | h
    · exact List.mem_toFinset.mpr (h ▸ ha)
    · exact List.mem_toFinset.mpr ((Finset.mem_singleton.mp h) ▸ hb)
  have hcard : ({a, b} : Finset ℕ).card = 2 := by
    rw [Finset.card_insert_of_not_mem (by simp [hab]), Finset.card_singleton]
  calc 2 = ({a, b} : Finset ℕ).card := hcard.symm
    _ ≤ l.toFinset.card := Finset.card_le_card hsub
    _ = l.length := List.toFinset_card_of_nodup hl

/-- What the merge-branch neighbor loop does to the data array: it marks
and re-parents exactly the still-unprocessed indices of the (nodup) list it
iterates over, leaving everything else untouched. -/
theorem mergeFold_facts (z : ℕ) (cid : ℤ) :
    ∀ (l : List ℕ) (t0 : List Node × ℚ × ℚ), l.Nodup →
    (∀ k ∈ l, k < t0.1.length) →
    (l.foldl (mergeNbrStep z cid) t0).1.length = t0.1.length ∧
    (∀ j, j ∉ l → nget (l.foldl (mergeNbrStep z cid) t0).1 j = nget t0.1 j) ∧
    (∀ k ∈ l, zle (nget t0.1 k).zoom z = false →
      nget (l.foldl (mergeNbrStep z cid) t0).1 k
        = { nget t0.1 k with zoom := some (z : ℤ), parent := cid }) ∧
    (∀ k ∈ l, zle (nget t0.1 k).zoom z = true →
      nget (l.foldl (mergeNbrStep z cid) t0).1 k = nget t0.1 k) := by
  intro l
  induction l with
  | nil => intro t0 _ _; exact ⟨rfl, fun j _ => rfl, by simp, by simp⟩
  | cons a l ih =>
      intro t0 hnd hlt
      have hal : a ∉ l := (List.nodup_cons.mp hnd).1
      have hnd' : l.Nodup := (List.nodup_cons.mp hnd).2
      have ha : a < t0.1.length := hlt a (List.mem_cons_self a l)
      rw [List.foldl_cons]
      by_cases h : zle (nget t0.1 a).zoom z
      · have hstep : mergeNbrStep z cid t0 a = t0 := by
          unfold mergeNbrStep
          simp [h]
        rw [hstep]
        obtain ⟨c1, c2, c3, c4⟩ := ih t0 hnd' fun k hk => hlt k (List.mem_cons_of_mem a hk)
        refine ⟨c1, fun j hj => c2 j fun hc => hj (List.mem_cons_of_mem a hc), ?_, ?_⟩
        · intro k hk hkf
          rcases List.mem_cons.mp hk with rfl | hk'
          · rw [h] at hkf; exact absurd hkf (by simp)
          · exact c3 k hk' hkf
        · intro k hk hkt
          rcases List.mem_cons.mp hk with rfl | hk'
          · exact c2 k hal
          · exact c4 k hk' hkt
      · have hstep : mergeNbrStep z cid t0 a
            = (t0.1.set a { nget t0.1 a with zoom := some (z : ℤ), parent := cid },
               t0.2.1 + (nget t0.1 a).x * (nget t0.1 a).num,
               t0.2.2 + (nget t0.1 a).y * (nget t0.1 a).num) := by
          unfold mergeNbrStep
          simp [h]
        rw [hstep]
        set t1 := (t0.1.set a { nget t0.1 a with zoom := some (z : ℤ), parent := cid },
          t0.2.1 + (nget t0.1 a).x * (nget t0.1 a).num,
          t0.2.2 + (nget t0.1 a).y * (nget t0.1 a).num) with ht1
        have hlen1 : t1.1.length = t0.1.length := List.length_set t0.1 a _
        have hkeep : ∀ j, j ≠ a → nget t1.1 j = nget t0.1 j := fun j hj =>
          nget_set_ne t0.1 a j _ fun hc => hj hc.symm
        have hseta : nget t1.1 a = { nget t0.1 a with zoom := some (z : ℤ), parent := cid } :=
          nget_set_eq t0.1 a _ ha
        obtain ⟨c1, c2, c3, c4⟩ := ih t1 hnd' fun k hk =>
          hlen1 ▸ hlt k (List.mem_cons_of_mem a hk)
        refine ⟨c1.trans hlen1, ?_, ?_, ?_⟩
        · intro j hj
          rw [c2 j fun hc => hj (List.mem_cons_of_mem a hc),
            hkeep j fun hc => hj (hc ▸ List.mem_cons_self a l)]
        · intro k hk hkf
          rcases List.mem_cons.mp hk with rfl | hk'
          · rw [c2 k hal, hseta]
          · rw [c3 k hk' (by rw [hkeep k fun hc => hal (hc ▸ hk')]; exact hkf),
              hkeep k fun hc => hal (hc ▸ hk')]
        · intro k hk hkt
          rcases List.mem_cons.mp hk with rfl | hk'
          · exact absurd hkt h
          · rw [c4 k hk' (by rw [hkeep k fun hc => hal (hc ▸ hk')]; exact hkt),
              hkeep k fun hc => hal (hc ▸ hk')]

/-- What the no-merge-branch neighbor loop does: it marks exactly the
still-unprocessed indices of the list and appends, in iteration order, one
copy of each such node with only the zoom field updated. -/
theorem copyFold_facts (z : ℕ) :
    ∀ (l : List ℕ) (t0 : List Node × List Node), l.Nodup →
    (∀ k ∈ l, k < t0.1.length) →
    (l.foldl (copyNbrStep z) t0).1.length = t0.1.length ∧
    (∀ j, j ∉ l → nget (l.foldl (copyNbrStep z) t0).1 j = nget t0.1 j) ∧
    (∀ k ∈ l, zle (nget t0.1 k).zoom z = false →
      nget (l.foldl (copyNbrStep z) t0).1 k
        = { nget t0.1 k with zoom := some (z : ℤ) }) ∧
    (∀ k ∈ l, zle (nget t0.1 k).zoom z = true →
      nget (l.foldl (copyNbrStep z) t0).1 k = nget t0.1 k) ∧
    (l.foldl (copyNbrStep z) t0).2 = t0.2 ++
      ((l.filter fun k => !zle (nget t0.1 k).zoom z).map fun k =>
        { nget t0.1 k with zoom := some (z : ℤ) }) := by
  intro l
  induction l with
  | nil => intro t0 _ _; exact ⟨rfl, fun j _ => rfl, by simp, by simp, by simp⟩
  | cons a l ih =>
      intro t0 hnd hlt
      have hal : a ∉ l := (List.nodup_cons.mp hnd).1
      have hnd' : l.Nodup := (List.nodup_cons.mp hnd).2
      have ha : a < t0.1.length := hlt a (List.mem_cons_self a l)
      rw [List.foldl_cons]
      by_cases h : zle (nget t0.1 a).zoom z
      · have hstep : copyNbrStep z t0 a = t0 := by
          unfold copyNbrStep
          simp [h]
        rw [hstep]
        obtain ⟨c1, c2, c3, c4, c5⟩ := ih t0 hnd' fun k hk => hlt k (List.mem_cons_of_mem a hk)
        refine ⟨c1, fun j hj => c2 j fun hc => hj (List.mem_cons_of_mem a hc), ?_, ?_, ?_⟩
        · intro k hk hkf
          rcases List.mem_cons.mp hk with rfl | hk'
          · rw [h] at hkf; exact absurd hkf (by simp)
          · exact c3 k hk' hkf
        · intro k hk hkt
          rcases List.mem_cons.mp hk with rfl | hk'
          · exact c2 k hal
          · exact c4 k hk' hkt
        · rw [c5, List.filter_cons_of_neg (by simp [h])]
      · have hstep : copyNbrStep z t0 a
            = (t0.1.set a { nget t0.1 a with zoom := some (z : ℤ) },
               t0.2 ++ [{ nget t0.1 a with zoom := some (z : ℤ) }]) := by
          unfold copyNbrStep
          simp [h]
        rw [hstep]
        set t1 := (t0.1.set a { nget t0.1 a with zoom := some (z : ℤ) },
          t0.2 ++ [{ nget t0.1 a with zoom := some (z : ℤ) }]) with ht1
        have hlen1 : t1.1.length = t0.1.length := List.length_set t0.1 a _
        have hkeep : ∀ j, j ≠ a → nget t1.1 j = nget t0.1 j := fun j hj =>
          nget_set_ne t0.1 a j _ fun hc => hj hc.symm
        have hseta : nget t1.1 a = { nget t0.1 a with zoom := some (z : ℤ) } :=
          nget_set_eq t0.1 a _ ha
        obtain ⟨c1, c2, c3, c4, c5⟩ := ih t1 hnd' fun k hk =>
          hlen1 ▸ hlt k (List.mem_cons_of_mem a hk)
        refine ⟨c1.trans hlen1, ?_, ?_, ?_, ?_⟩
        · intro j hj
          rw [c2 j fun hc => hj (List.mem_cons_of_mem a hc),
            hkeep j fun hc => hj (hc ▸ List.mem_cons_self a l)]
        · intro k hk hkf
          rcases List.mem_cons.mp hk with rfl | hk'
          · rw [c2 k hal, hseta]
          · rw [c3 k hk' (by rw [hkeep k fun hc => hal (hc ▸ hk')]; exact hkf),
              hkeep k fun hc => hal (hc ▸ hk')]
        · intro k hk hkt
          rcases List.mem_cons.mp hk with rfl | hk'
          · exact absurd hkt h
          · rw [c4 k hk' (by rw [hkeep k fun hc => hal (hc ▸ hk')]; exact hkt),
              hkeep k fun hc => hal (hc ▸ hk')]
        · rw [c5, List.filter_cons_of_pos (by simp [h])]
          have hfeq : l.filter (fun k => !zle (nget t1.1 k).zoom z)
              = l.filter fun k => !zle (nget t0.1 k).zoom z :=
            List.filter_congr fun k hk => by rw [hkeep k fun hc => hal (hc ▸ hk)]
          have hmeq : ∀ k ∈ l.filter (fun k => !zle (nget t0.1 k).zoom z),
              ({ nget t1.1 k with zoom := some (z : ℤ) } : Node)
                = { nget t0.1 k with zoom := some (z : ℤ) } := by
            intro k hk
            rw [hkeep k fun hc => hal (hc ▸ (List.mem_filter.mp hk).1)]
          rw [hfeq, List.map_congr_left hmeq, List.map_cons]
          simp

/-- A cluster node freshly created during the pass over d0 at target zoom
z, together with the facts the hierarchy navigator later relies on: its id
encodes (center index, z + 1, numPoints); the parent-marked set of the
being-mutated array dcur contains the center and at least one neighbor, all
its members lie in the center's radius query over d0 (or are the center),
and their weights sum to the cluster's weight. -/
def NewCl (P : Proj) (z : ℕ) (r : ℚ) (N : ℕ) (d0 dcur : List Node)
    (nd : Node) : Prop :=
  nd.zoom = none ∧ nd.parent = -1 ∧ 1 < nd.num ∧
  ∃ i, i < d0.length ∧ nd.id = 32 * i + ((z : ℤ) + 1) + N ∧
    i ∈ clusterSet dcur nd.id ∧ 2 ≤ (clusterSet dcur nd.id).length ∧
    ((clusterSet dcur nd.id).map fun j => (nget dcur j).num).sum = nd.num ∧
    ∀ j ∈ clusterSet dcur nd.id, j = i ∨
      j ∈ withinIdx P d0 (nget d0 i).x (nget d0 i).y r

/-- The mid-pass invariant of the main loop of _cluster over input d0 at
target zoom z, about the state (mutated data, nextData accumulated). -/
structure PassInv (P : Proj) (z : ℕ) (r : ℚ) (N : ℕ) (d0 : List Node)
    (s : List Node × List Node) : Prop where
  len : s.1.length = d0.length
  ptw : ∀ j, nget s.1 j = nget d0 j ∨
    ∃ pv, nget s.1 j = { nget d0 j with zoom := some (z : ℤ), parent := pv }
  sums : (s.2.map Node.num).sum = msum z s.1
  strukt : ∀ nd ∈ s.2,
    (∃ j, j < d0.length ∧ nd = { nget d0 j with zoom := some (z : ℤ) }) ∨
    NewCl P z r N d0 s.1 nd
  pars : ∀ j, j < d0.length → (nget s.1 j).parent = -1 ∨
    ∃ i2, i2 < d0.length ∧ (nget s.1 i2).zoom = some (z : ℤ) ∧
      (nget s.1 j).parent = 32 * i2 + ((z : ℤ) + 1) + N

theorem zle_coe_self (z : ℕ) : zle (some (z : ℤ)) z = true := by simp [zle]

/-- Both invariant alternatives preserve the position, id and weight. -/
theorem ptw_fields {z : ℕ} {a b : Node}
    (h : a = b ∨ ∃ pv, a = { b with zoom := some (z : ℤ), parent := pv }) :
    a.x = b.x ∧ a.y = b.y ∧ a.id = b.id ∧ a.num = b.num := by
  rcases h with rfl | ⟨pv, rfl⟩ <;> exact ⟨rfl, rfl, rfl, rfl⟩

/-- clusterSet only depends on membership of the parent value. -/
theorem clusterSet_congr_iff (dA dB : List Node) (cid : ℤ)
    (hlen : dB.length = dA.length)
    (h : ∀ j, j < dA.length →
      ((nget dB j).parent = cid ↔ (nget dA j).parent = cid)) :
    clusterSet dB cid = clusterSet dA cid := by
  unfold clusterSet
  rw [hlen]
  apply List.filter_congr
  intro j hj
  have hj' := List.mem_range.mp hj
  by_cases hA : (nget dA j).parent = cid
  · simp [hA, (h j hj').mpr hA]
  · have hB : ¬ (nget dB j).parent = cid := fun hc => hA ((h j hj').mp hc)
    simp [hA, hB]

/-- Sum an index function over clusterSet when membership of the parent
set is characterized by a nodup list. -/
theorem clusterSet_sum_eq (d : List Node) (cid : ℤ) (K : List ℕ)
    (hK : K.Nodup) (hsub : ∀ j ∈ K, j < d.length)
    (hiff : ∀ j, j < d.length → ((nget d j).parent = cid ↔ j ∈ K)) :
    ((clusterSet d cid).map fun j => (nget d j).num).sum
      = (K.map fun j => (nget d j).num).sum := by
  unfold clusterSet
  rw [listFilterMapSum, ← sum_range_ite_mem d.length K hK _ hsub]
  apply Finset.sum_congr rfl
  intro j hj
  have hiffj := hiff j (Finset.mem_range.mp hj)
  by_cases hjK : j ∈ K
  · simp [hjK, hiffj.mpr hjK]
  · have hb : ¬ (nget d j).parent = cid := fun hc => hjK (hiffj.mp hc)
    simp [hjK, hb]

/-- NewCl transfers along a mutation that preserves lengths, weights and
membership of the cluster's parent set. -/
theorem newCl_transfer (P : Proj) (z : ℕ) (r : ℚ) (N : ℕ) (d0 : List Node)
    (dA dB : List Node) (nd : Node) (hlen : dB.length = dA.length)
    (hpar : ∀ j, j < dA.length →
      ((nget dB j).parent = nd.id ↔ (nget dA j).parent = nd.id))
    (hnum : ∀ j, (nget dB j).num = (nget dA j).num)
    (h : NewCl P z r N d0 dA nd) : NewCl P z r N d0 dB nd := by
  obtain ⟨h1, h2, h3, i, hi, hid, hmem, hl2, hsum, hwin⟩ := h
  have hcs : clusterSet dB nd.id = clusterSet dA nd.id :=
    clusterSet_congr_iff dA dB nd.id hlen hpar
  refine ⟨h1, h2, h3, i, hi, hid, hcs ▸ hmem, hcs ▸ hl2, ?_, fun j hj => hwin j (hcs ▸ hj)⟩
  rw [hcs, ← hsum]
  exact congrArg List.sum (List.map_congr_left fun j _ => hnum j)

/-- A zero sum of weights, each at least 1, forces an empty list. -/
theorem eq_nil_of_sum_zero (l : List ℕ) (f : ℕ → ℕ)
    (h : (l.map f).sum = 0) (hf : ∀ k ∈ l, 1 ≤ f k) : l = [] := by
  cases l with
  | nil => rfl
  | cons a l =>
      exfalso
      have h1 := hf a (List.mem_cons_self a l)
      simp [List.map_cons, List.sum_cons] at h
      omega

/-- A node whose zoom field does not yet compare at most z is still exactly
its pass-input value. -/
theorem unmarked_eq {P : Proj} {z : ℕ} {r : ℚ} {N : ℕ} {d0 : List Node}
    {s : List Node × List Node} (hinv : PassInv P z r N d0 s) (j : ℕ)
    (hj : zle (nget s.1 j).zoom z = false) : nget s.1 j = nget d0 j := by
  rcases hinv.ptw j with h | ⟨pv, h⟩
  · exact h
  · rw [h] at hj
    simp [zle] at hj

section StepLemmas

variable (P : Proj) (z : ℕ) (r : ℚ) (minPts N : ℕ) (d0 : List Node)
variable (s : List Node × List Node) (i : ℕ)

/-- The no-merge branch without neighbor copies: mark the center and append
it unchanged. -/
theorem step_else_nocopy
    (Hp : ∀ nd ∈ d0, nd.parent = -1)
    (hinv : PassInv P z r N d0 s) (hi : i < d0.length)
    (h0 : zle (nget s.1 i).zoom z = false)
    (d1 : List Node) (hd1 : d1 = s.1.set i { nget s.1 i with zoom := some (z : ℤ) }) :
    PassInv P z r N d0 (d1, s.2 ++ [nget d1 i]) ∧
    zle (nget d1 i).zoom z = true ∧
    (∀ j, zle (nget s.1 j).zoom z = true → zle (nget d1 j).zoom z = true) := by
  have hndi : nget s.1 i = nget d0 i := unmarked_eq hinv i h0
  have hsl : i < s.1.length := hinv.len ▸ hi
  have hlen1 : d1.length = s.1.length := by rw [hd1, List.length_set]
  have hd1i : nget d1 i = { nget s.1 i with zoom := some (z : ℤ) } := by
    rw [hd1]; exact nget_set_eq s.1 i _ hsl
  have hd1ne : ∀ j, j ≠ i → nget d1 j = nget s.1 j := fun j hj => by
    rw [hd1]; exact nget_set_ne s.1 i j _ fun hc => hj hc.symm
  have hzled1 : zle (nget d1 i).zoom z = true := by rw [hd1i]; exact zle_coe_self z
  have hparI : (nget s.1 i).parent = -1 := by
    rw [hndi]; exact Hp _ (nget_mem d0 i hi)
  refine ⟨⟨hlen1.trans hinv.len, ?_, ?_, ?_, ?_⟩, hzled1, ?_⟩
  · intro j
    by_cases hji : j = i
    · subst hji
      right
      exact ⟨(nget d0 j).parent, by rw [hd1i, hndi]⟩
    · rw [hd1ne j hji]
      exact hinv.ptw j
  · have hms : msum z d1 = msum z s.1 + ([i].map fun j => (nget s.1 j).num).sum := by
      apply msum_update z s.1 d1 [i] (by simp) hlen1
      · intro j hj
        exact hd1ne j (by simpa using hj)
      · intro j hj
        rw [List.mem_singleton] at hj
        subst hj
        exact ⟨hsl, h0, hzled1, by rw [hd1i]⟩
    rw [List.map_append, List.sum_append, hinv.sums, hms]
    simp [hd1i]
  · intro nd hnd
    rcases List.mem_append.mp hnd with hold | hnew
    · rcases hinv.strukt nd hold with hcopy | hnc
      · exact Or.inl hcopy
      · refine Or.inr (newCl_transfer P z r N d0 s.1 d1 nd hlen1 ?_ ?_ hnc)
        · intro j _
          by_cases hji : j = i
          · subst hji
            rw [hd1i]
          · rw [hd1ne j hji]
        · intro j
          by_cases hji : j = i
          · subst hji
            rw [hd1i]
          · rw [hd1ne j hji]
    · rw [List.mem_singleton] at hnew
      subst hnew
      exact Or.inl ⟨i, hi, by rw [hd1i, hndi]⟩
  · intro j hj
    by_cases hji : j = i
    · subst hji
      left
      rw [hd1i]
      exact hparI
    · rw [hd1ne j hji]
      rcases hinv.pars j hj with hl | ⟨i2, hi2, hz2, hp2⟩
      · exact Or.inl hl
      · refine Or.inr ⟨i2, hi2, ?_, hp2⟩
        by_cases hi2i : i2 = i
        · subst hi2i
          rw [hd1i]
        · rw [hd1ne i2 hi2i]
          exact hz2
  · intro j hj
    by_cases hji : j = i
    · subst hji
      exact hzled1
    · rw [hd1ne j hji]
      exact hj

/-- The no-merge branch with neighbor copies: mark the center and append it,
then mark every still-unprocessed neighbor and append an unchanged copy. -/
theorem step_else_copy
    (Hp : ∀ nd ∈ d0, nd.parent = -1)
    (hinv : PassInv P z r N d0 s) (hi : i < d0.length)
    (h0 : zle (nget s.1 i).zoom z = false)
    (d1 : List Node) (hd1 : d1 = s.1.set i { nget s.1 i with zoom := some (z : ℤ) })
    (nbrs : List ℕ)
    (hnbrs : nbrs = withinIdx P d1 (nget s.1 i).x (nget s.1 i).y r) :
    PassInv P z r N d0 (nbrs.foldl (copyNbrStep z) (d1, s.2 ++ [nget d1 i])) ∧
    zle (nget (nbrs.foldl (copyNbrStep z) (d1, s.2 ++ [nget d1 i])).1 i).zoom z = true ∧
    (∀ j, zle (nget s.1 j).zoom z = true →
      zle (nget (nbrs.foldl (copyNbrStep z) (d1, s.2 ++ [nget d1 i])).1 j).zoom z = true) := by
  have hndi : nget s.1 i = nget d0 i := unmarked_eq hinv i h0
  have hsl : i < s.1.length := hinv.len ▸ hi
  have hlen1 : d1.length = s.1.length := by rw [hd1, List.length_set]
  have hd1i : nget d1 i = { nget s.1 i with zoom := some (z : ℤ) } := by
    rw [hd1]; exact nget_set_eq s.1 i _ hsl
  have hd1ne : ∀ j, j ≠ i → nget d1 j = nget s.1 j := fun j hj => by
    rw [hd1]; exact nget_set_ne s.1 i j _ fun hc => hj hc.symm
  have hzled1 : zle (nget d1 i).zoom z = true := by rw [hd1i]; exact zle_coe_self z
  have hparI : (nget s.1 i).parent = -1 := by
    rw [hndi]; exact Hp _ (nget_mem d0 i hi)
  have hnbnd : nbrs.Nodup := hnbrs ▸ withinIdx_nodup P d1 _ _ r
  have hnblt : ∀ k ∈ nbrs, k < d1.length := fun k hk =>
    withinIdx_mem_lt P d1 _ _ r k (hnbrs ▸ hk)
  obtain ⟨e1, e2, e3, e4, e5⟩ :=
    copyFold_facts z nbrs (d1, s.2 ++ [nget d1 i]) hnbnd hnblt
  set F := nbrs.foldl (copyNbrStep z) (d1, s.2 ++ [nget d1 i]) with hF
  set U := nbrs.filter (fun k => !zle (nget d1 k).zoom z) with hU
  have hUmem : ∀ k, k ∈ U ↔ k ∈ nbrs ∧ zle (nget d1 k).zoom z = false := by
    intro k
    rw [hU, List.mem_filter]
    simp
  have hUlt : ∀ k ∈ U, k < d0.length := fun k hk =>
    (hinv.len ▸ hlen1 ▸ hnblt k ((hUmem k).mp hk).1)
  have hUi : i ∉ U := fun hk => by
    have := ((hUmem i).mp hk).2
    rw [hzled1] at this
    exact absurd this (by simp)
  have hU_s1 : ∀ k ∈ U, nget d1 k = nget s.1 k := fun k hk =>
    hd1ne k fun hc => hUi (hc ▸ hk)
  have hU_false : ∀ k ∈ U, zle (nget s.1 k).zoom z = false := fun k hk => by
    rw [← hU_s1 k hk]; exact ((hUmem k).mp hk).2
  have hU_d0 : ∀ k ∈ U, nget s.1 k = nget d0 k := fun k hk =>
    unmarked_eq hinv k (hU_false k hk)
  have pwU : ∀ k ∈ U, nget F.1 k = { nget d0 k with zoom := some (z : ℤ) } := by
    intro k hk
    rw [e3 k ((hUmem k).mp hk).1 ((hUmem k).mp hk).2, hU_s1 k hk, hU_d0 k hk]
  have pwOther : ∀ j, j ∉ U → nget F.1 j = nget d1 j := by
    intro j hj
    by_cases hjn : j ∈ nbrs
    · have hzt : zle (nget d1 j).zoom z = true := by
        by_contra hc
        exact hj ((hUmem j).mpr ⟨hjn, by simpa using hc⟩)
      exact e4 j hjn hzt
    · exact e2 j hjn
  have hFlen : F.1.length = s.1.length := e1.trans hlen1
  have hUnodup : U.Nodup := List.Nodup.filter _ hnbnd
  have hKnodup : (i :: U).Nodup := List.nodup_cons.mpr ⟨hUi, hUnodup⟩
  have hFi : nget F.1 i = nget d1 i := pwOther i hUi
  refine ⟨⟨hFlen.trans hinv.len, ?_, ?_, ?_, ?_⟩, ?_, ?_⟩
  · intro j
    by_cases hjU : j ∈ U
    · right
      exact ⟨(nget d0 j).parent, by rw [pwU j hjU]⟩
    · by_cases hji : j = i
      · subst hji
        right
        exact ⟨(nget d0 j).parent, by rw [hFi, hd1i, hndi]⟩
      · rw [pwOther j hjU, hd1ne j hji]
        exact hinv.ptw j
  · have hms : msum z F.1 = msum z s.1 + ((i :: U).map fun j => (nget s.1 j).num).sum := by
      apply msum_update z s.1 F.1 (i :: U) hKnodup hFlen
      · intro j hj
        rw [List.mem_cons] at hj
        push_neg at hj
        rw [pwOther j hj.2, hd1ne j hj.1]
      · intro j hj
        rcases List.mem_cons.mp hj with rfl | hjU
        · exact ⟨hsl, h0, by rw [hFi]; exact hzled1, by rw [hFi, hd1i]⟩
        · refine ⟨hinv.len ▸ hUlt j hjU, hU_false j hjU, ?_, ?_⟩
          · rw [pwU j hjU]
            exact zle_coe_self z
          · rw [pwU j hjU, ← hU_d0 j hjU]
    rw [e5, hms]
    rw [List.map_append, List.sum_append, List.map_append, List.sum_append, hinv.sums]
    have hcopysum : ((U.map fun k => ({ nget d1 k with zoom := some (z : ℤ) } : Node)).map
        Node.num).sum = (U.map fun j => (nget s.1 j).num).sum := by
      rw [List.map_map]
      apply congrArg List.sum
      apply List.map_congr_left
      intro k hk
      simp [Function.comp, hU_s1 k hk]
    rw [hcopysum]
    simp [hd1i]
    ring
  · intro nd hnd
    rw [e5, List.append_assoc] at hnd
    rcases List.mem_append.mp hnd with hold | hnew
    · rcases hinv.strukt nd hold with hcopy | hnc
      · exact Or.inl hcopy
      · refine Or.inr (newCl_transfer P z r N d0 s.1 F.1 nd hFlen ?_ ?_ hnc)
        · intro j _
          by_cases hjU : j ∈ U
          · rw [pwU j hjU, ← hU_d0 j hjU, ← hU_s1 j hjU]
          · by_cases hji : j = i
            · subst hji
              rw [hFi, hd1i]
            · rw [pwOther j hjU, hd1ne j hji]
        · intro j
          by_cases hjU : j ∈ U
          · rw [pwU j hjU, ← hU_d0 j hjU, ← hU_s1 j hjU]
          · by_cases hji : j = i
            · subst hji
              rw [hFi, hd1i]
            · rw [pwOther j hjU, hd1ne j hji]
    · rcases List.mem_append.mp hnew with hc | hcs
      · rw [List.mem_singleton] at hc
        subst hc
        exact Or.inl ⟨i, hi, by rw [hd1i, hndi]⟩
      · rcases List.mem_map.mp hcs with ⟨k, hk, he⟩
        subst he
        refine Or.inl ⟨k, hUlt k hk, ?_⟩
        rw [hU_s1 k hk, hU_d0 k hk]
  · intro j hj
    have hpj : (nget F.1 j).parent = (nget s.1 j).parent := by
      by_cases hjU : j ∈ U
      · rw [pwU j hjU, ← hU_d0 j hjU, ← hU_s1 j hjU]
      · by_cases hji : j = i
        · subst hji
          rw [hFi, hd1i]
        · rw [pwOther j hjU, hd1ne j hji]
    rw [hpj]
    rcases hinv.pars j hj with hl | ⟨i2, hi2, hz2, hp2⟩
    · exact Or.inl hl
    · refine Or.inr ⟨i2, hi2, ?_, hp2⟩
      by_cases hjU : i2 ∈ U
      · rw [pwU i2 hjU]
      · by_cases hji : i2 = i
        · subst hji
          rw [hFi, hd1i]
        · rw [pwOther i2 hjU, hd1ne i2 hji]
          exact hz2
  · rw [hFi]
    exact hzled1
  · intro j hj
    by_cases hjU : j ∈ U
    · rw [pwU j hjU]
      exact zle_coe_self z
    · by_cases hji : j = i
      · subst hji
        rw [hFi]
        exact hzled1
      · rw [pwOther j hjU, hd1ne j hji]
        exact hj

/-- The merge branch: mark and re-parent the center and every
still-unprocessed neighbor, and append the freshly created cluster node
carrying the encoded id and the total weight. -/
theorem step_merge
    (Hp : ∀ nd ∈ d0, nd.parent = -1)
    (Hn : ∀ nd ∈ d0, 1 ≤ nd.num)
    (hinv : PassInv P z r N d0 s) (hi : i < d0.length)
    (h0 : zle (nget s.1 i).zoom z = false)
    (d1 : List Node) (hd1 : d1 = s.1.set i { nget s.1 i with zoom := some (z : ℤ) })
    (nbrs : List ℕ)
    (hnbrs : nbrs = withinIdx P d1 (nget s.1 i).x (nget s.1 i).y r)
    (numPts : ℕ)
    (hnum : numPts = (nget s.1 i).num +
      ((nbrs.filter fun k => !zle (nget d1 k).zoom z).map fun k =>
        (nget d1 k).num).sum)
    (hcond : (nget s.1 i).num < numPts ∧ minPts ≤ numPts)
    (M : List Node × ℚ × ℚ)
    (hM : M = nbrs.foldl (mergeNbrStep z (32 * i + ((z : ℤ) + 1) + N))
      (d1, (nget s.1 i).x * (nget s.1 i).num, (nget s.1 i).y * (nget s.1 i).num))
    (D2 : List Node)
    (hD2 : D2 = M.1.set i { nget M.1 i with parent := 32 * i + ((z : ℤ) + 1) + N }) :
    PassInv P z r N d0 (D2, s.2 ++
      [⟨M.2.1 / numPts, M.2.2 / numPts, none, 32 * i + ((z : ℤ) + 1) + N, -1, numPts⟩]) ∧
    zle (nget D2 i).zoom z = true ∧
    (∀ j, zle (nget s.1 j).zoom z = true → zle (nget D2 j).zoom z = true) := by
  set cid : ℤ := 32 * i + ((z : ℤ) + 1) + N with hcid
  have hndi : nget s.1 i = nget d0 i := unmarked_eq hinv i h0
  have hsl : i < s.1.length := hinv.len ▸ hi
  have hlen1 : d1.length = s.1.length := by rw [hd1, List.length_set]
  have hd1i : nget d1 i = { nget s.1 i with zoom := some (z : ℤ) } := by
    rw [hd1]; exact nget_set_eq s.1 i _ hsl
  have hd1ne : ∀ j, j ≠ i → nget d1 j = nget s.1 j := fun j hj => by
    rw [hd1]; exact nget_set_ne s.1 i j _ fun hc => hj hc.symm
  have hzled1 : zle (nget d1 i).zoom z = true := by rw [hd1i]; exact zle_coe_self z
  have hnbnd : nbrs.Nodup := hnbrs ▸ withinIdx_nodup P d1 _ _ r
  have hnblt : ∀ k ∈ nbrs, k < d1.length := fun k hk =>
    withinIdx_mem_lt P d1 _ _ r k (hnbrs ▸ hk)
  obtain ⟨e1, e2, e3, e4⟩ := mergeFold_facts z cid nbrs
    (d1, (nget s.1 i).x * (nget s.1 i).num, (nget s.1 i).y * (nget s.1 i).num)
    hnbnd hnblt
  rw [← hM] at e1 e2 e3 e4
  set U := nbrs.filter (fun k => !zle (nget d1 k).zoom z) with hU
  have hUmem : ∀ k, k ∈ U ↔ k ∈ nbrs ∧ zle (nget d1 k).zoom z = false := by
    intro k
    rw [hU, List.mem_filter]
    simp
  have hUlt : ∀ k ∈ U, k < d0.length := fun k hk =>
    (hinv.len ▸ hlen1 ▸ hnblt k ((hUmem k).mp hk).1)
  have hUi : i ∉ U := fun hk => by
    have := ((hUmem i).mp hk).2
    rw [hzled1] at this
    exact absurd this (by simp)
  have hU_s1 : ∀ k ∈ U, nget d1 k = nget s.1 k := fun k hk =>
    hd1ne k fun hc => hUi (hc ▸ hk)
  have hU_false : ∀ k ∈ U, zle (nget s.1 k).zoom z = false := fun k hk => by
    rw [← hU_s1 k hk]; exact ((hUmem k).mp hk).2
  have hU_d0 : ∀ k ∈ U, nget s.1 k = nget d0 k := fun k hk =>
    unmarked_eq hinv k (hU_false k hk)
  have pwU : ∀ k ∈ U, nget M.1 k
      = { nget d0 k with zoom := some (z : ℤ), parent := cid } := by
    intro k hk
    rw [e3 k ((hUmem k).mp hk).1 ((hUmem k).mp hk).2, hU_s1 k hk, hU_d0 k hk]
  have pwOther : ∀ j, j ∉ U → nget M.1 j = nget d1 j := by
    intro j hj
    by_cases hjn : j ∈ nbrs
    · have hzt : zle (nget d1 j).zoom z = true := by
        by_contra hc
        exact hj ((hUmem j).mpr ⟨hjn, by simpa using hc⟩)
      exact e4 j hjn hzt
    · exact e2 j hjn
  have hMi : nget M.1 i = nget d1 i := pwOther i hUi
  have hMlen : M.1.length = s.1.length := e1.trans hlen1
  have hD2len : D2.length = s.1.length := by rw [hD2, List.length_set]; exact hMlen
  have hlD2 : D2.length = d0.length := hD2len.trans hinv.len
  have hD2i : nget D2 i = { nget s.1 i with zoom := some (z : ℤ), parent := cid } := by
    rw [hD2, nget_set_eq M.1 i _ (hMlen ▸ hsl), hMi, hd1i]
  have hD2ne : ∀ j, j ≠ i → nget D2 j = nget M.1 j := fun j hj => by
    rw [hD2]; exact nget_set_ne M.1 i j _ fun hc => hj hc.symm
  have pw2i : nget D2 i = { nget d0 i with zoom := some (z : ℤ), parent := cid } := by
    rw [hD2i, hndi]
  have pw2U : ∀ k ∈ U, nget D2 k
      = { nget d0 k with zoom := some (z : ℤ), parent := cid } := by
    intro k hk
    rw [hD2ne k fun hc => hUi (hc ▸ hk)]
    exact pwU k hk
  have pw2Other : ∀ j, j ∉ U → j ≠ i → nget D2 j = nget s.1 j := by
    intro j hjU hji
    rw [hD2ne j hji, pwOther j hjU, hd1ne j hji]
  have hUnodup : U.Nodup := List.Nodup.filter _ hnbnd
  have hKnodup : (i :: U).Nodup := List.nodup_cons.mpr ⟨hUi, hUnodup⟩
  have hcidpos : (1 : ℤ) ≤ cid := by
    rw [hcid]
    have h1 : (0 : ℤ) ≤ (i : ℤ) := Int.natCast_nonneg i
    have h2 : (0 : ℤ) ≤ (z : ℤ) := Int.natCast_nonneg z
    have h3 : (0 : ℤ) ≤ (N : ℤ) := Int.natCast_nonneg N
    omega
  -- a marked node of s.1 whose parent is an encoded id has a center index
  -- distinct from i, hence a parent value distinct from cid
  have hothercid : ∀ i2 : ℕ, (nget s.1 i2).zoom = some (z : ℤ) →
      32 * (i2 : ℤ) + ((z : ℤ) + 1) + N ≠ cid := by
    intro i2 hz2 hc
    have hne : i2 ≠ i := by
      intro he
      subst he
      rw [hz2] at h0
      simp [zle] at h0
    rw [hcid] at hc
    have : (i2 : ℤ) = (i : ℤ) := by omega
    exact hne (by exact_mod_cast this)
  have hunpar : ∀ j, zle (nget s.1 j).zoom z = false → j < d0.length →
      (nget s.1 j).parent = -1 := by
    intro j hjf hjl
    rw [unmarked_eq hinv j hjf]
    exact Hp _ (nget_mem d0 j hjl)
  have hparchar : ∀ j, j < d0.length →
      ((nget D2 j).parent = cid ↔ j = i ∨ j ∈ U) := by
    intro j hjl
    constructor
    · intro hpc
      by_contra hc
      push_neg at hc
      rw [pw2Other j hc.2 hc.1] at hpc
      rcases hinv.pars j hjl with hm1 | ⟨i2, _, hz2, hp2⟩
      · rw [hm1] at hpc
        omega
      · rw [hp2] at hpc
        exact hothercid i2 hz2 hpc
    · rintro (rfl | hjU)
      · rw [pw2i]
      · rw [pw2U j hjU]
  have hUne : U ≠ [] := by
    intro hUnil
    rw [hUnil] at hnum
    simp at hnum
    omega
  have hnumOr : 1 ≤ (nget s.1 i).num := by
    rw [hndi]
    exact Hn _ (nget_mem d0 i hi)
  have hnbrs0 : nbrs = withinIdx P d0 (nget d0 i).x (nget d0 i).y r := by
    rw [hnbrs, ← hndi]
    apply withinIdx_congr P d1 d0 _ _ r (hlen1.trans hinv.len)
    intro j
    by_cases hji : j = i
    · subst hji
      rw [hd1i, hndi]
      exact ⟨rfl, rfl⟩
    · rw [hd1ne j hji]
      have := ptw_fields (z := z) (hinv.ptw j)
      exact ⟨this.1, this.2.1⟩
  have hsumU : (U.map fun k => (nget d1 k).num).sum
      = (U.map fun k => (nget s.1 k).num).sum :=
    congrArg List.sum (List.map_congr_left fun k hk => by rw [hU_s1 k hk])
  refine ⟨⟨hD2len.trans hinv.len, ?_, ?_, ?_, ?_⟩, ?_, ?_⟩
  · intro j
    by_cases hjU : j ∈ U
    · right
      exact ⟨cid, by rw [pw2U j hjU]⟩
    · by_cases hji : j = i
      · subst hji
        right
        exact ⟨cid, by rw [pw2i]⟩
      · rw [pw2Other j hjU hji]
        exact hinv.ptw j
  · have hms : msum z D2 = msum z s.1 + ((i :: U).map fun j => (nget s.1 j).num).sum := by
      apply msum_update z s.1 D2 (i :: U) hKnodup hD2len
      · intro j hj
        rw [List.mem_cons] at hj
        push_neg at hj
        exact pw2Other j hj.2 hj.1
      · intro j hj
        rcases List.mem_cons.mp hj with rfl | hjU
        · exact ⟨hsl, h0, by rw [pw2i]; exact zle_coe_self z, by rw [pw2i, hndi]⟩
        · refine ⟨hinv.len ▸ hUlt j hjU, hU_false j hjU, ?_, ?_⟩
          · rw [pw2U j hjU]
            exact zle_coe_self z
          · rw [pw2U j hjU, ← hU_d0 j hjU]
    rw [List.map_append, List.sum_append, hinv.sums, hms]
    simp only [List.map_cons, List.sum_cons, List.map_nil, List.sum_nil]
    have : numPts = (nget s.1 i).num + (U.map fun j => (nget s.1 j).num).sum := by
      rw [hnum, hsumU]
    simp [this]
  · intro nd hnd
    rcases List.mem_append.mp hnd with hold | hnew
    · rcases hinv.strukt nd hold with hcopy | hnc
      · exact Or.inl hcopy
      · -- the old cluster's id differs from cid, and the nodes re-parented
        -- in this step previously carried parent -1
        have hncid : nd.id ≠ cid := by
          obtain ⟨-, -, -, i2, hi2, hid2, hmem2, -, -, -⟩ := hnc
          have hpar2 : (nget s.1 i2).parent = nd.id := ((mem_clusterSet _ _ _).mp hmem2).2
          have hz2 : (nget s.1 i2).zoom = some (z : ℤ) := by
            rcases hinv.ptw i2 with he | ⟨pv, he⟩
            · exfalso
              have : (nget s.1 i2).parent = -1 := by
                rw [he]; exact Hp _ (nget_mem d0 i2 (hinv.len ▸ (mem_clusterSet _ _ _).mp hmem2 |>.1))
              rw [this] at hpar2
              have hidpos : (1 : ℤ) ≤ nd.id := by
                rw [hid2]
                have h1 : (0 : ℤ) ≤ (i2 : ℤ) := Int.natCast_nonneg i2
                have h2 : (0 : ℤ) ≤ (z : ℤ) := Int.natCast_nonneg z
                have h3 : (0 : ℤ) ≤ (N : ℤ) := Int.natCast_nonneg N
                omega
              omega
            · rw [he]
          rw [hid2]
          exact hothercid i2 hz2
        refine Or.inr (newCl_transfer P z r N d0 s.1 D2 nd hD2len ?_ ?_ hnc)
        · intro j hjl
          by_cases hjU : j ∈ U
          · rw [pw2U j hjU]
            constructor
            · intro hc
              exfalso
              exact hncid (by rw [← hc])
            · intro hc
              exfalso
              have := hunpar j (hU_false j hjU) (hinv.len ▸ hjl)
              rw [this] at hc
              have hidpos : (1 : ℤ) ≤ nd.id := by
                obtain ⟨-, -, -, i2, -, hid2, -, -, -, -⟩ := hnc
                rw [hid2]
                have h1 : (0 : ℤ) ≤ (i2 : ℤ) := Int.natCast_nonneg i2
                have h2 : (0 : ℤ) ≤ (z : ℤ) := Int.natCast_nonneg z
                have h3 : (0 : ℤ) ≤ (N : ℤ) := Int.natCast_nonneg N
                omega
              omega
          · by_cases hji : j = i
            · subst hji
              rw [pw2i]
              constructor
              · intro hc
                exact absurd (by rw [← hc]) hncid
              · intro hc
                exfalso
                have := hunpar j h0 (hinv.len ▸ hjl)
                rw [this] at hc
                have hidpos : (1 : ℤ) ≤ nd.id := by
                  obtain ⟨-, -, -, i2, -, hid2, -, -, -, -⟩ := hnc
                  rw [hid2]
                  have h1 : (0 : ℤ) ≤ (i2 : ℤ) := Int.natCast_nonneg i2
                  have h2 : (0 : ℤ) ≤ (z : ℤ) := Int.natCast_nonneg z
                  have h3 : (0 : ℤ) ≤ (N : ℤ) := Int.natCast_nonneg N
                  omega
                omega
            · rw [pw2Other j hjU hji]
        · intro j
          by_cases hjU : j ∈ U
          · rw [pw2U j hjU, ← hU_d0 j hjU, ← hU_s1 j hjU]
          · by_cases hji : j = i
            · subst hji
              rw [pw2i, hndi]
            · rw [pw2Other j hjU hji]
    · rw [List.mem_singleton] at hnew
      subst hnew
      refine Or.inr ⟨rfl, rfl, ?_, i, hi, rfl, ?_, ?_, ?_, ?_⟩
      · show 1 < numPts
        omega
      · rw [mem_clusterSet]
        exact ⟨hlD2.symm ▸ hi, by rw [pw2i]⟩
      · obtain ⟨u, hu⟩ := List.exists_mem_of_ne_nil U hUne
        have hui : u ≠ i := fun hc => hUi (hc ▸ hu)
        apply two_le_length_of_nodup _ (clusterSet_nodup D2 cid) i u
        · rw [mem_clusterSet]
          exact ⟨hlD2.symm ▸ hi, by rw [pw2i]⟩
        · rw [mem_clusterSet]
          exact ⟨hlD2.symm ▸ hUlt u hu, by rw [pw2U u hu]⟩
        · exact fun hc => hui hc.symm
      · show ((clusterSet D2 cid).map fun j => (nget D2 j).num).sum = numPts
        rw [clusterSet_sum_eq D2 cid (i :: U) hKnodup
          (fun j hj => by
            rcases List.mem_cons.mp hj with rfl | hjU
            · exact hlD2.symm ▸ hi
            · exact hlD2.symm ▸ hUlt j hjU)
          (fun j hjl => by
            rw [hparchar j (hlD2 ▸ hjl)]
            exact (List.mem_cons).symm)]
        simp only [List.map_cons, List.sum_cons]
        have hni : (nget D2 i).num = (nget s.1 i).num := by rw [pw2i, hndi]
        have hnu : (U.map fun j => (nget D2 j).num).sum
            = (U.map fun j => (nget s.1 j).num).sum :=
          congrArg List.sum (List.map_congr_left fun k hk => by
            rw [pw2U k hk, ← hU_d0 k hk, ← hU_s1 k hk])
        rw [hni, hnu, hnum, hsumU]
      · intro j hj
        have hjl : j < d0.length := hlD2 ▸ clusterSet_mem_lt D2 cid j hj
        have := ((mem_clusterSet D2 cid j).mp hj).2
        rcases (hparchar j hjl).mp this with rfl | hjU
        · exact Or.inl rfl
        · right
          rw [← hnbrs0]
          exact ((hUmem j).mp hjU).1
  · intro j hj
    by_cases hjU : j ∈ U
    · right
      refine ⟨i, hi, by rw [pw2i], by rw [pw2U j hjU]⟩
    · by_cases hji : j = i
      · subst hji
        right
        exact ⟨j, hj, by rw [pw2i], by rw [pw2i]⟩
      · rw [pw2Other j hjU hji]
        rcases hinv.pars j hj with hl | ⟨i2, hi2, hz2, hp2⟩
        · exact Or.inl hl
        · refine Or.inr ⟨i2, hi2, ?_, hp2⟩
          by_cases h2U : i2 ∈ U
          · rw [pw2U i2 h2U]
          · by_cases h2i : i2 = i
            · subst h2i
              rw [pw2i]
            · rw [pw2Other i2 h2U h2i]
              exact hz2
  · rw [pw2i]
    exact zle_coe_self z
  · intro j hj
    by_cases hjU : j ∈ U
    · rw [pw2U j hjU]
      exact zle_coe_self z
    · by_cases hji : j = i
      · subst hji
        rw [pw2i]
        exact zle_coe_self z
      · rw [pw2Other j hjU hji]
        exact hj

end StepLemmas

/-- One loop iteration of _cluster preserves the pass invariant, marks the
visited index, and never unmarks anything. -/
theorem clusterStep_inv (P : Proj) (z : ℕ) (r : ℚ) (minPts N : ℕ) (d0 : List Node)
    (Hp : ∀ nd ∈ d0, nd.parent = -1) (Hn : ∀ nd ∈ d0, 1 ≤ nd.num)
    (s : List Node × List Node) (i : ℕ)
    (hinv : PassInv P z r N d0 s) (hi : i < d0.length) :
    PassInv P z r N d0 (clusterStep P z r minPts N s i) ∧
    zle (nget (clusterStep P z r minPts N s i).1 i).zoom z = true ∧
    (∀ j, zle (nget s.1 j).zoom z = true →
      zle (nget (clusterStep P z r minPts N s i).1 j).zoom z = true) := by
  by_cases h0 : zle (nget s.1 i).zoom z = true
  · have hstep : clusterStep P z r minPts N s i = s := by
      unfold clusterStep
      simp [h0]
    rw [hstep]
    exact ⟨hinv, h0, fun j hj => hj⟩
  · have h0f : zle (nget s.1 i).zoom z = false := by simpa using h0
    unfold clusterStep
    simp only [h0f, Bool.false_eq_true, if_false]
    split
    · next hcond =>
        exact step_merge P z r minPts N d0 s i Hp Hn hinv hi h0f _ rfl _ rfl _ rfl hcond _ rfl _ rfl
    · next hcond =>
        split
        · next hgt =>
            exact step_else_copy P z r N d0 s i Hp hinv hi h0f _ rfl _ rfl
        · next hgt =>
            exact step_else_nocopy P z r N d0 s i Hp hinv hi h0f _ rfl

/-- Folding the loop body over any list of in-range indices preserves the
invariant, keeps marks, and leaves every visited index marked. -/
theorem clusterFold_inv (P : Proj) (z : ℕ) (r : ℚ) (minPts N : ℕ) (d0 : List Node)
    (Hp : ∀ nd ∈ d0, nd.parent = -1) (Hn : ∀ nd ∈ d0, 1 ≤ nd.num) :
    ∀ (l : List ℕ) (s : List Node × List Node), PassInv P z r N d0 s →
    (∀ j ∈ l, j < d0.length) →
    PassInv P z r N d0 (l.foldl (clusterStep P z r minPts N) s) ∧
    (∀ j, zle (nget s.1 j).zoom z = true →
      zle (nget (l.foldl (clusterStep P z r minPts N) s).1 j).zoom z = true) ∧
    (∀ j ∈ l, zle (nget (l.foldl (clusterStep P z r minPts N) s).1 j).zoom z = true) := by
  intro l
  induction l with
  | nil => intro s hinv _; exact ⟨hinv, fun j hj => hj, by simp⟩
  | cons a l ih =>
      intro s hinv hlt
      rw [List.foldl_cons]
      obtain ⟨h1, h2, h3⟩ := clusterStep_inv P z r minPts N d0 Hp Hn s a hinv
        (hlt a (List.mem_cons_self a l))
      obtain ⟨g1, g2, g3⟩ := ih (clusterStep P z r minPts N s a) h1
        fun j hj => hlt j (List.mem_cons_of_mem a hj)
      refine ⟨g1, fun j hj => g2 j (h3 j hj), ?_⟩
      intro j hj
      rcases List.mem_cons.mp hj with rfl | hj'
      · exact g2 j h2
      · exact g3 j hj'

theorem map_nget_range (d : List Node) (f : Node → ℕ) :
    ((List.range d.length).map fun j => f (nget d j)) = d.map f := by
  apply List.ext_getElem (by simp)
  intro j h1 h2
  have hj : j < d.length := by simpa using h2
  simp only [List.getElem_map, List.getElem_range, nget,
    List.getD_eq_getElem?_getD, List.getElem?_eq_getElem hj, Option.getD_some]

theorem msum_full (z : ℕ) (d : List Node)
    (h : ∀ j, j < d.length → zle (nget d j).zoom z = true) :
    msum z d = (d.map Node.num).sum := by
  unfold msum
  rw [List.filter_eq_self.mpr fun j hj => h j (List.mem_range.mp hj),
    map_nget_range d Node.num]

theorem map_num_eq (dA dB : List Node) (hlen : dA.length = dB.length)
    (h : ∀ j, (nget dA j).num = (nget dB j).num) :
    dA.map Node.num = dB.map Node.num := by
  apply List.ext_getElem (by simp [hlen])
  intro j h1 h2
  have hjA : j < dA.length := by simpa using h1
  have hjB : j < dB.length := by simpa using h2
  have := h j
  simp only [nget, List.getD_eq_getElem?_getD, List.getElem?_eq_getElem hjA,
    List.getElem?_eq_getElem hjB] at this
  simpa using this

/-- All facts about one whole pass of _cluster over data satisfying the
entry conditions of a level (all zoom fields above the target zoom, all
parents unset, all weights positive). -/
theorem clusterPass_facts (P : Proj) (radius extent : ℚ) (minPts N : ℕ)
    (d0 : List Node) (z : ℕ)
    (Hz : ∀ nd ∈ d0, zle nd.zoom z = false)
    (Hp : ∀ nd ∈ d0, nd.parent = -1)
    (Hn : ∀ nd ∈ d0, 1 ≤ nd.num) :
    (clusterPass P radius extent minPts N d0 z).1.length = d0.length ∧
    (∀ j, nget (clusterPass P radius extent minPts N d0 z).1 j = nget d0 j ∨
      ∃ pv, nget (clusterPass P radius extent minPts N d0 z).1 j
        = { nget d0 j with zoom := some (z : ℤ), parent := pv }) ∧
    ((clusterPass P radius extent minPts N d0 z).2.map Node.num).sum
      = (d0.map Node.num).sum ∧
    (∀ nd ∈ (clusterPass P radius extent minPts N d0 z).2,
      (∃ j, j < d0.length ∧ nd = { nget d0 j with zoom := some (z : ℤ) }) ∨
      NewCl P z (radius / (extent * 2 ^ z)) N d0
        (clusterPass P radius extent minPts N d0 z).1 nd) ∧
    (∀ j, j < d0.length →
      zle (nget (clusterPass P radius extent minPts N d0 z).1 j).zoom z = true) := by
  have hinit : PassInv P z (radius / (extent * 2 ^ z)) N d0 (d0, []) := by
    refine ⟨rfl, fun j => Or.inl rfl, ?_, by simp, fun j hj => Or.inl (Hp _ (nget_mem d0 j hj))⟩
    show ([] : List ℕ).sum = msum z d0
    unfold msum
    rw [List.filter_eq_nil_iff.mpr fun j hj => by
      simp [Hz _ (nget_mem d0 j (List.mem_range.mp hj))]]
    simp
  obtain ⟨hf, -, hm⟩ := clusterFold_inv P z (radius / (extent * 2 ^ z)) minPts N d0
    Hp Hn (List.range d0.length) (d0, []) hinit fun j hj => List.mem_range.mp hj
  have hpass : clusterPass P radius extent minPts N d0 z
      = (List.range d0.length).foldl
        (clusterStep P z (radius / (extent * 2 ^ z)) minPts N) (d0, []) := rfl
  rw [hpass]
  set F := (List.range d0.length).foldl
    (clusterStep P z (radius / (extent * 2 ^ z)) minPts N) (d0, []) with hF
  have hmarked : ∀ j, j < d0.length → zle (nget F.1 j).zoom z = true := fun j hj =>
    hm j (List.mem_range.mpr hj)
  refine ⟨hf.len, hf.ptw, ?_, hf.strukt, hmarked⟩
  rw [hf.sums, msum_full z F.1 fun j hj => hmarked j (hf.len ▸ hj)]
  exact congrArg List.sum (map_num_eq F.1 d0 hf.len fun j =>
    (ptw_fields (z := z) (hf.ptw j)).2.2.2)

/-- The cluster-children facts the hierarchy navigator relies on, stated
over the final level map L: the cluster with encoded center index oi,
children level p + 1 and id cid has a parent-marked set in its children
level that contains the center plus at least one neighbor, lies inside the
center's radius query at the pass radius of zoom p, and has total weight w. -/
def CFacts (P : Proj) (radius extent : ℚ) (_N : ℕ)
    (L : ℤ → Option (List Node)) (p oi : ℕ) (cid : ℤ) (w : ℕ) : Prop :=
  ∃ dd, L ((p : ℤ) + 1) = some dd ∧ oi < dd.length ∧
    oi ∈ clusterSet dd cid ∧ 2 ≤ (clusterSet dd cid).length ∧
    ((clusterSet dd cid).map fun j => (nget dd j).num).sum = w ∧
    ∀ j ∈ clusterSet dd cid, j = oi ∨
      j ∈ withinIdx P dd (nget dd oi).x (nget dd oi).y
        (radius / (extent * 2 ^ p))

/-- The master invariant over a level map: every stored level conserves the
total weight σ, all weights are positive, and every cluster node decodes to
a center/children-level pair satisfying CFacts. -/
def MasterOn (P : Proj) (radius extent : ℚ) (N σ : ℕ)
    (L : ℤ → Option (List Node)) (maxoz : ℤ) : Prop :=
  ∀ z dd, L z = some dd →
    (dd.map Node.num).sum = σ ∧
    ∀ nd ∈ dd, 1 ≤ nd.num ∧ (1 < nd.num →
      ∃ (oi p : ℕ), z < (p : ℤ) + 1 ∧ (p : ℤ) + 1 ≤ maxoz ∧
        nd.id = 32 * oi + ((p : ℤ) + 1) + N ∧
        CFacts P radius extent N L p oi nd.id nd.num)

theorem cfacts_transport (P : Proj) (radius extent : ℚ) (N : ℕ)
    (L1 L2 : ℤ → Option (List Node)) (p oi : ℕ) (cid : ℤ) (w : ℕ)
    (h : L1 ((p : ℤ) + 1) = L2 ((p : ℤ) + 1))
    (hf : CFacts P radius extent N L1 p oi cid w) :
    CFacts P radius extent N L2 p oi cid w := by
  obtain ⟨dd, hdd, rest⟩ := hf
  exact ⟨dd, h ▸ hdd, rest⟩

theorem masterOn_transport (P : Proj) (radius extent : ℚ) (N σ : ℕ)
    (L1 L2 : ℤ → Option (List Node)) (maxoz : ℤ)
    (h : ∀ z, L1 z = L2 z)
    (hm : MasterOn P radius extent N σ L1 maxoz) :
    MasterOn P radius extent N σ L2 maxoz := by
  intro z dd hdd
  obtain ⟨hs, hnodes⟩ := hm z dd ((h z) ▸ hdd)
  refine ⟨hs, fun nd hnd => ⟨(hnodes nd hnd).1, fun hgt => ?_⟩⟩
  obtain ⟨oi, p, b1, b2, b3, b4⟩ := (hnodes nd hnd).2 hgt
  exact ⟨oi, p, b1, b2, b3,
    cfacts_transport P radius extent N L1 L2 p oi nd.id nd.num (h _) b4⟩

/-- The downward pass loop of load establishes the master invariant, given
a context C of already-finalized higher levels that satisfies it. -/
theorem build_master (P : Proj) (radius extent : ℚ) (minPts N : ℕ) (σ : ℕ)
    (maxoz : ℤ) :
    ∀ (k top : ℕ) (d : List Node) (C : ℤ → Option (List Node)),
    k ≤ top →
    (top : ℤ) ≤ maxoz →
    (∀ nd ∈ d, nd.zoom = none ∨ nd.zoom = some (top : ℤ)) →
    (∀ nd ∈ d, nd.parent = -1) →
    (∀ nd ∈ d, 1 ≤ nd.num) →
    (d.map Node.num).sum = σ →
    (∀ nd ∈ d, 1 < nd.num →
      ∃ (oi p : ℕ), (top : ℤ) < (p : ℤ) + 1 ∧ (p : ℤ) + 1 ≤ maxoz ∧
        nd.id = 32 * oi + ((p : ℤ) + 1) + N ∧
        CFacts P radius extent N C p oi nd.id nd.num) →
    (∀ z dd, (top : ℤ) < z → C z = some dd →
      (dd.map Node.num).sum = σ ∧
      ∀ nd ∈ dd, 1 ≤ nd.num ∧ (1 < nd.num →
        ∃ (oi p : ℕ), z < (p : ℤ) + 1 ∧ (p : ℤ) + 1 ≤ maxoz ∧
          nd.id = 32 * oi + ((p : ℤ) + 1) + N ∧
          CFacts P radius extent N C p oi nd.id nd.num)) →
    MasterOn P radius extent N σ
      (fun z => if (top : ℤ) < z then C z
        else buildLevels P radius extent minPts N k top d z) maxoz := by
  intro k
  induction k with
  | zero =>
      intro top d C _ htm h1 h2 h3 hσ h4 hC
      intro z dd hz
      simp only [buildLevels] at hz
      by_cases hzt : (top : ℤ) < z
      · rw [if_pos hzt] at hz
        obtain ⟨hs, hnodes⟩ := hC z dd hzt hz
        refine ⟨hs, fun nd hnd => ⟨(hnodes nd hnd).1, fun hgt => ?_⟩⟩
        obtain ⟨oi, p, b1, b2, b3, b4⟩ := (hnodes nd hnd).2 hgt
        refine ⟨oi, p, b1, b2, b3, ?_⟩
        apply cfacts_transport P radius extent N C _ p oi nd.id nd.num _ b4
        have : (top : ℤ) < (p : ℤ) + 1 := lt_trans hzt b1
        simp [this]
      · rw [if_neg hzt] at hz
        by_cases hze : z = (top : ℤ)
        · rw [if_pos hze] at hz
          injection hz with hz
          subst hz
          subst hze
          refine ⟨hσ, fun nd hnd => ⟨h3 nd hnd, fun hgt => ?_⟩⟩
          obtain ⟨oi, p, b1, b2, b3, b4⟩ := h4 nd hnd hgt
          refine ⟨oi, p, b1, b2, b3, ?_⟩
          apply cfacts_transport P radius extent N C _ p oi nd.id nd.num _ b4
          simp [b1]
        · rw [if_neg hze] at hz
          exact absurd hz (by simp)
  | succ k ih =>
      intro top d C hk htm h1 h2 h3 hσ h4 hC
      have htop1 : 1 ≤ top := le_trans (Nat.succ_le_succ (Nat.zero_le k)) hk
      have hcast : ((top - 1 : ℕ) : ℤ) = (top : ℤ) - 1 := by omega
      have Hz : ∀ nd ∈ d, zle nd.zoom (((top - 1 : ℕ) : ℤ)) = false := by
        intro nd hnd
        rcases h1 nd hnd with hne | hse
        · simp [zle, hne]
        · simp only [zle, hse, decide_eq_false_iff_not]
          omega
      obtain ⟨f1, f2, f3, f4, f5⟩ := clusterPass_facts P radius extent minPts N d
        (top - 1) Hz h2 h3
      set F := clusterPass P radius extent minPts N d (top - 1) with hF
      -- the next level map with the just-finalized level top added
      set C' : ℤ → Option (List Node) :=
        fun z => if z = (top : ℤ) then some F.1 else C z with hC'
      have hcast2 : ((top - 1 : ℕ) : ℤ) + 1 = (top : ℤ) := by omega
      have hccast : ∀ p : ℕ, (top : ℤ) < (p : ℤ) + 1 → ((p : ℤ) + 1 ≠ (top : ℤ)) :=
        fun p hp => by omega
      -- facts about nodes of d transfer to nodes of the mutated array F.1
      have hF1num : ∀ j, (nget F.1 j).num = (nget d j).num := fun j =>
        (ptw_fields (z := top - 1) (f2 j)).2.2.2
      have hF1id : ∀ j, (nget F.1 j).id = (nget d j).id := fun j =>
        (ptw_fields (z := top - 1) (f2 j)).2.2.1
      have hF1x : ∀ j, (nget F.1 j).x = (nget d j).x := fun j =>
        (ptw_fields (z := top - 1) (f2 j)).1
      have hF1y : ∀ j, (nget F.1 j).y = (nget d j).y := fun j =>
        (ptw_fields (z := top - 1) (f2 j)).2.1
      have hF1sum : (F.1.map Node.num).sum = σ := by
        rw [map_num_eq F.1 d f1 hF1num]
        exact hσ
      -- facts about the finalized level top, used both for C' and for the
      -- final assembly
      have hLevTop : (F.1.map Node.num).sum = σ ∧
          ∀ nd ∈ F.1, 1 ≤ nd.num ∧ (1 < nd.num →
            ∃ (oi p : ℕ), (top : ℤ) < (p : ℤ) + 1 ∧ (p : ℤ) + 1 ≤ maxoz ∧
              nd.id = 32 * oi + ((p : ℤ) + 1) + N ∧
              CFacts P radius extent N C' p oi nd.id nd.num) := by
        refine ⟨hF1sum, fun nd hnd => ?_⟩
        obtain ⟨j, hj, rfl⟩ := (mem_iff_nget F.1 nd).mp hnd
        have hjd : j < d.length := f1 ▸ hj
        have hdj : nget d j ∈ d := nget_mem d j hjd
        constructor
        · rw [hF1num j]
          exact h3 _ hdj
        · intro hgt
          rw [hF1num j] at hgt
          obtain ⟨oi, p, b1, b2, b3, b4⟩ := h4 _ hdj hgt
          refine ⟨oi, p, b1, b2, ?_, ?_⟩
          · rw [hF1id j]
            exact b3
          · rw [hF1id j, hF1num j]
            apply cfacts_transport P radius extent N C C' p oi _ _ _ b4
            rw [hC']
            simp [hccast p b1]
      -- entry conditions of the recursive call on nextData
      have h1' : ∀ nd ∈ F.2, nd.zoom = none ∨ nd.zoom = some ((top - 1 : ℕ) : ℤ) := by
        intro nd hnd
        rcases f4 nd hnd with ⟨j, hj, rfl⟩ | hnc
        · exact Or.inr rfl
        · exact Or.inl hnc.1
      have h2' : ∀ nd ∈ F.2, nd.parent = -1 := by
        intro nd hnd
        rcases f4 nd hnd with ⟨j, hj, rfl⟩ | hnc
        · exact h2 (nget d j) (nget_mem d j hj)
        · exact hnc.2.1
      have h3' : ∀ nd ∈ F.2, 1 ≤ nd.num := by
        intro nd hnd
        rcases f4 nd hnd with ⟨j, hj, rfl⟩ | hnc
        · exact h3 (nget d j) (nget_mem d j hj)
        · exact le_of_lt hnc.2.2.1
      have hσ' : (F.2.map Node.num).sum = σ := f3.trans hσ
      have h4' : ∀ nd ∈ F.2, 1 < nd.num →
          ∃ (oi p : ℕ), ((top - 1 : ℕ) : ℤ) < (p : ℤ) + 1 ∧ (p : ℤ) + 1 ≤ maxoz ∧
            nd.id = 32 * oi + ((p : ℤ) + 1) + N ∧
            CFacts P radius extent N C' p oi nd.id nd.num := by
        intro nd hnd hgt
        rcases f4 nd hnd with ⟨j, hj, rfl⟩ | hnc
        · -- an unchanged copy of a node of d: its cluster facts are those
          -- of the original, which live strictly above level top
          have hdj : nget d j ∈ d := nget_mem d j hj
          obtain ⟨oi, p, b1, b2, b3, b4⟩ := h4 _ hdj hgt
          refine ⟨oi, p, by omega, b2, b3, ?_⟩
          apply cfacts_transport P radius extent N C C' p oi _ _ _ b4
          rw [hC']
          simp [hccast p b1]
        · -- a cluster created by this pass: children at level top - 1 + 1 =
          -- top, which is exactly the level C' now stores
          obtain ⟨hzo, hpar, hgt2, i, hid0, hid, hmem, hlen2, hsum2, hwin⟩ := hnc
          refine ⟨i, top - 1, by omega, by omega, hid, ?_⟩
          refine ⟨F.1, by rw [hC']; simp [hcast2], f1 ▸ hid0, hmem, hlen2, hsum2, ?_⟩
          intro j hj
          rcases hwin j hj with rfl | hw
          · exact Or.inl rfl
          · right
            rw [hF1x i, hF1y i]
            rw [withinIdx_congr P F.1 d _ _ _ f1 fun j => ⟨hF1x j, hF1y j⟩]
            exact hw
      have hC'facts : ∀ z dd, ((top - 1 : ℕ) : ℤ) < z → C' z = some dd →
          (dd.map Node.num).sum = σ ∧
          ∀ nd ∈ dd, 1 ≤ nd.num ∧ (1 < nd.num →
            ∃ (oi p : ℕ), z < (p : ℤ) + 1 ∧ (p : ℤ) + 1 ≤ maxoz ∧
              nd.id = 32 * oi + ((p : ℤ) + 1) + N ∧
              CFacts P radius extent N C' p oi nd.id nd.num) := by
        intro z dd hzgt hdd
        simp only [hC'] at hdd
        by_cases hzt : z = (top : ℤ)
        · rw [if_pos hzt] at hdd
          injection hdd with hdd
          subst hdd
          subst hzt
          exact hLevTop
        · rw [if_neg hzt] at hdd
          have hzgt' : (top : ℤ) < z := by omega
          obtain ⟨hs, hnodes⟩ := hC z dd hzgt' hdd
          refine ⟨hs, fun nd hnd => ⟨(hnodes nd hnd).1, fun hgt => ?_⟩⟩
          obtain ⟨oi, p, b1, b2, b3, b4⟩ := (hnodes nd hnd).2 hgt
          refine ⟨oi, p, b1, b2, b3, ?_⟩
          apply cfacts_transport P radius extent N C C' p oi _ _ _ b4
          rw [hC']
          have : (top : ℤ) < (p : ℤ) + 1 := by omega
          simp [hccast p this]
      have hrec := ih (top - 1) F.2 C' (by omega) (by omega)
        h1' h2' h3' hσ' h4' hC'facts
      -- the recursion's merged map coincides pointwise with the goal map
      apply masterOn_transport P radius extent N σ _ _ maxoz _ hrec
      intro z
      simp only [buildLevels, ← hF]
      by_cases hzt : (top : ℤ) < z
      · have hz1 : ((top - 1 : ℕ) : ℤ) < z := by omega
        have hzne : ¬ z = (top : ℤ) := by omega
        simp [hC', hz1, hzne, hzt]
      · by_cases hze : z = (top : ℤ)
        · have hz1 : ((top - 1 : ℕ) : ℤ) < z := by omega
          simp [hC', hz1, hze, hzt]
          intro h0
          omega
        · have hz1 : ¬ ((top - 1 : ℕ) : ℤ) < z := by omega
          simp [hC', hz1, hzt, hze]

/-- Every emitted leaf node has weight 1, an unset zoom and parent, and a
row-index id inside [0, numRows). -/
theorem leafData_facts (P : Proj) (coords : List (Option ℚ))
    (mask : Option (List Bool)) (numRows : ℕ) :
    ∀ nd ∈ leafData P coords mask numRows,
      nd.num = 1 ∧ nd.zoom = none ∧ nd.parent = -1 ∧
      0 ≤ nd.id ∧ nd.id < numRows := by
  intro nd hnd
  unfold leafData at hnd
  obtain ⟨i, hi, he⟩ := List.mem_filterMap.mp hnd
  split at he
  · cases he
  · split at he
    · injection he with he
      subst he
      have := List.mem_range.mp hi
      refine ⟨rfl, rfl, rfl, ?_, ?_⟩
      · show (0 : ℤ) ≤ (i : ℤ)
        positivity
      · show (i : ℤ) < (numRows : ℤ)
        exact_mod_cast this
    · cases he

theorem sum_map_num_of_ones (l : List Node) (h : ∀ nd ∈ l, nd.num = 1) :
    (l.map Node.num).sum = l.length := by
  induction l with
  | nil => rfl
  | cons a l ih =>
      simp only [List.map_cons, List.sum_cons, h a (List.mem_cons_self a l),
        List.length_cons, ih fun nd hnd => h nd (List.mem_cons_of_mem a hnd)]
      omega

/-- buildLevels stores nothing above its top level. -/
theorem buildLevels_gt_none (P : Proj) (radius extent : ℚ) (minPts N : ℕ) :
    ∀ (k top : ℕ) (d : List Node) (z : ℤ), (top : ℤ) < z →
      buildLevels P radius extent minPts N k top d z = none := by
  intro k
  induction k with
  | zero =>
      intro top d z hz
      simp only [buildLevels]
      rw [if_neg (by omega)]
  | succ k ih =>
      intro top d z hz
      simp only [buildLevels]
      rw [if_neg (by omega)]
      exact ih (top - 1) _ z (by omega)

/-- buildLevels stores a level for every zoom in [top - k, top]. -/
theorem buildLevels_isSome (P : Proj) (radius extent : ℚ) (minPts N : ℕ) :
    ∀ (k top : ℕ) (d : List Node) (z : ℤ), k ≤ top → (top : ℤ) - k ≤ z →
      z ≤ (top : ℤ) →
      ∃ dd, buildLevels P radius extent minPts N k top d z = some dd := by
  intro k
  induction k with
  | zero =>
      intro top d z _ h1 h2
      have : z = (top : ℤ) := by omega
      exact ⟨d, by simp [buildLevels, this]⟩
  | succ k ih =>
      intro top d z hk h1 h2
      by_cases hze : z = (top : ℤ)
      · exact ⟨(clusterPass P radius extent minPts N d (top - 1)).1,
          by simp [buildLevels, hze]⟩
      · obtain ⟨dd, hdd⟩ := ih (top - 1)
          (clusterPass P radius extent minPts N d (top - 1)).2 z (by omega)
          (by omega) (by omega)
        exact ⟨dd, by simp [buildLevels, hze, hdd]⟩

/-- The level stored at the top zoom has exactly one node per indexed leaf
(lengths are preserved by the in-place pass mutation). -/
theorem buildLevels_top_length (P : Proj) (radius extent : ℚ) (minPts N : ℕ)
    (k top : ℕ) (d : List Node)
    (Hz : ∀ nd ∈ d, nd.zoom = none)
    (Hp : ∀ nd ∈ d, nd.parent = -1)
    (Hn : ∀ nd ∈ d, 1 ≤ nd.num) :
    ∃ dd, buildLevels P radius extent minPts N k top d (top : ℤ) = some dd ∧
      dd.length = d.length := by
  cases k with
  | zero => exact ⟨d, by simp [buildLevels], rfl⟩
  | succ k =>
      refine ⟨(clusterPass P radius extent minPts N d (top - 1)).1,
        by simp [buildLevels], ?_⟩
      exact (clusterPass_facts P radius extent minPts N d (top - 1)
        (fun nd hnd => by simp [zle, Hz nd hnd]) Hp Hn).1

/-- The state and result of a load whose geometry column resolves. -/
theorem load_eq_of_geom (P : Proj) (st : Engine) (tbl : Table)
    (mask : Option (List Bool)) (coords : List (Option ℚ))
    (hgeom : tbl.geom = some coords) :
    load P st tbl mask =
      ({ radius := st.radius, extent := st.extent, minZoom := st.minZoom,
         maxZoom := st.maxZoom, minPoints := st.minPoints,
         numPoints := tbl.numRows,
         treeData := buildLevels P st.radius st.extent st.minPoints
           tbl.numRows (st.maxZoom + 1 - st.minZoom) (st.maxZoom + 1)
           (leafData P coords mask tbl.numRows),
         coordValues := some coords,
         bufEntries := List.replicate
           (leafData P coords mask tbl.numRows).length entry0 }, false) := by
  unfold load
  rw [hgeom]

/-- The master theorem about a completed load: the stored level map
satisfies the invariant with total weight equal to the number of indexed
leaves, every level in [minZoom, maxZoom + 1] is stored, and
indexedPointCount is the leaf count. -/
theorem load_facts (P : Proj) (st : Engine) (tbl : Table)
    (mask : Option (List Bool)) (coords : List (Option ℚ))
    (hgeom : tbl.geom = some coords) :
    MasterOn P st.radius st.extent tbl.numRows
      (leafData P coords mask tbl.numRows).length
      ((load P st tbl mask).1.treeData) ((st.maxZoom : ℤ) + 1) ∧
    (∀ z : ℤ, (st.minZoom : ℤ) ≤ z → z ≤ (st.maxZoom : ℤ) + 1 →
      ∃ dd, (load P st tbl mask).1.treeData z = some dd) ∧
    indexedPointCount (load P st tbl mask).1
      = (leafData P coords mask tbl.numRows).length := by
  have hle := load_eq_of_geom P st tbl mask coords hgeom
  set data := leafData P coords mask tbl.numRows with hdata
  have hlf := leafData_facts P coords mask tbl.numRows
  have Hz0 : ∀ nd ∈ data, nd.zoom = none := fun nd hnd => (hlf nd hnd).2.1
  have Hp0 : ∀ nd ∈ data, nd.parent = -1 := fun nd hnd => (hlf nd hnd).2.2.1
  have Hn0 : ∀ nd ∈ data, 1 ≤ nd.num := fun nd hnd => le_of_eq (hlf nd hnd).1.symm
  have hσ0 : (data.map Node.num).sum = data.length :=
    sum_map_num_of_ones data fun nd hnd => (hlf nd hnd).1
  have hmaster := build_master P st.radius st.extent st.minPoints tbl.numRows
    data.length ((st.maxZoom : ℤ) + 1) (st.maxZoom + 1 - st.minZoom)
    (st.maxZoom + 1) data (fun _ => none)
    (by omega) (by omega)
    (fun nd hnd => Or.inl (Hz0 nd hnd)) Hp0 Hn0 hσ0
    (fun nd hnd hgt => absurd ((hlf nd hnd).1 ▸ hgt) (by omega))
    (fun z dd _ h => by cases h)
  have htd : (load P st tbl mask).1.treeData
      = buildLevels P st.radius st.extent st.minPoints tbl.numRows
        (st.maxZoom + 1 - st.minZoom) (st.maxZoom + 1) data := by
    rw [hle]
  refine ⟨?_, ?_, ?_⟩
  · rw [htd]
    apply masterOn_transport P st.radius st.extent tbl.numRows data.length _ _
      ((st.maxZoom : ℤ) + 1) _ hmaster
    intro z
    by_cases hz : ((st.maxZoom : ℕ) + 1 : ℕ) < z
    · rw [if_pos (by exact_mod_cast hz),
        buildLevels_gt_none P st.radius st.extent st.minPoints tbl.numRows _ _ data z
          (by exact_mod_cast hz)]
    · rw [if_neg (by exact_mod_cast hz)]
  · intro z h1 h2
    rw [htd]
    exact buildLevels_isSome P st.radius st.extent st.minPoints tbl.numRows
      (st.maxZoom + 1 - st.minZoom) (st.maxZoom + 1) data z (by omega) (by omega)
      (by omega)
  · obtain ⟨dd, hdd, hlen⟩ := buildLevels_top_length P st.radius st.extent
      st.minPoints tbl.numRows (st.maxZoom + 1 - st.minZoom) (st.maxZoom + 1)
      data Hz0 Hp0 Hn0
    unfold indexedPointCount
    rw [hle]
    simp only
    have hcast : ((st.maxZoom + 1 : ℕ) : ℤ) = (st.maxZoom : ℤ) + 1 := by omega
    rw [← hcast, hdd]
    exact hlen

theorem ngetZ_of_lt (d : List Node) (j : ℕ) (h : j < d.length) :
    ngetZ d (j : ℤ) = some (nget d j) := by
  unfold ngetZ
  rw [dif_pos ⟨Int.natCast_nonneg j, by simpa using h⟩]
  congr 1
  rw [nget, List.getD_eq_getElem?_getD, List.getElem?_eq_getElem h,
    List.get_eq_getElem]
  simp [Int.toNat_natCast]

/-- Decoding an encoded cluster id (id = (oi << 5) + oz + numPoints with
0 < oz < 32) recovers the origin zoom and origin index. -/
theorem decode_encoded (N oi : ℕ) (oz : ℤ) (h1 : 1 ≤ oz) (h2 : oz < 32) :
    jsRem (32 * (oi : ℤ) + oz + N - N) 32 = oz ∧
    jsShr5 (32 * (oi : ℤ) + oz + N - N) = oi := by
  have he : 32 * (oi : ℤ) + oz + N - N = 32 * oi + oz := by ring
  rw [he]
  have hnn : (0 : ℤ) ≤ 32 * oi + oz := by positivity
  constructor
  · rw [jsRem, Int.tmod_eq_emod hnn (by norm_num)]
    omega
  · rw [jsShr5, Int.fdiv_eq_ediv _ (by norm_num)]
    omega

/-- With exact index coordinates (fr = id), the radius query run by
_getChildIndices on a cluster's children level returns exactly the
parent-marked set of that cluster is recovered: the query's parent filter
yields clusterSet. -/
theorem childIndices_of_cfacts (P : Proj) (st : Engine) (p oi : ℕ)
    (cid : ℤ) (w : ℕ) (hfr : ∀ q, P.fr q = q)
    (hcf : CFacts P st.radius st.extent st.numPoints st.treeData p oi cid w)
    (hcid : cid = 32 * (oi : ℤ) + ((p : ℤ) + 1) + st.numPoints)
    (hp : (p : ℤ) + 1 < 32) :
    ∃ dd, st.treeData ((p : ℤ) + 1) = some dd ∧
      getChildIndices P st cid = (clusterSet dd cid, dd) := by
  obtain ⟨dd, hdd, holt, homem, holen, hosum, howin⟩ := hcf
  have hdec := decode_encoded st.numPoints oi ((p : ℤ) + 1) (by omega) hp
  have hoz : getOriginZoom st cid = (p : ℤ) + 1 := by
    rw [getOriginZoom, hcid]
    exact hdec.1
  have hoi : getOriginId st cid = (oi : ℤ) := by
    rw [getOriginId, hcid]
    exact hdec.2
  refine ⟨dd, hdd, ?_⟩
  simp only [getChildIndices]
  rw [hoz, hoi, hdd]
  show (if (dd.length : ℤ) ≤ (oi : ℤ) then (([] : List ℕ), ([] : List Node))
    else ((withinIdxOpt P dd ((ngetZ dd (oi : ℤ)).map Node.x)
      ((ngetZ dd (oi : ℤ)).map Node.y)
      (st.radius / (st.extent * (2 : ℚ) ^ ((p : ℤ) + 1 - 1)))).filter
        (fun nid => (nget dd nid).parent == cid), dd)) = (clusterSet dd cid, dd)
  rw [if_neg (by simpa using holt)]
  rw [ngetZ_of_lt dd oi holt]
  have hzp : st.radius / (st.extent * (2 : ℚ) ^ ((p : ℤ) + 1 - 1))
      = st.radius / (st.extent * (2 : ℚ) ^ (p : ℕ)) := by
    rw [show (p : ℤ) + 1 - 1 = (p : ℤ) by ring, zpow_natCast]
  have hwop : withinIdxOpt P dd ((some (nget dd oi)).map Node.x)
      ((some (nget dd oi)).map Node.y)
      (st.radius / (st.extent * (2 : ℚ) ^ ((p : ℤ) + 1 - 1)))
      = withinIdx P dd (nget dd oi).x (nget dd oi).y
        (st.radius / (st.extent * (2 : ℚ) ^ ((p : ℤ) + 1 - 1))) := rfl
  rw [hwop, hzp]
  congr 1
  -- the parent filter of the radius query equals clusterSet
  unfold withinIdx clusterSet
  rw [List.filter_filter]
  apply List.filter_congr
  intro j hj
  by_cases hpar : (nget dd j).parent == cid
  · have hmem : j ∈ clusterSet dd cid := by
      rw [mem_clusterSet]
      exact ⟨List.mem_range.mp hj, by simpa using hpar⟩
    have hin : j ∈ withinIdx P dd (nget dd oi).x (nget dd oi).y
        (st.radius / (st.extent * 2 ^ p)) := by
      rcases howin j hmem with rfl | hw
      · unfold withinIdx
        rw [List.mem_filter]
        refine ⟨hj, by simp [hfr]; positivity⟩
      · exact hw
    unfold withinIdx at hin
    rw [List.mem_filter] at hin
    rw [hpar, hin.2]
    rfl
  · simp only [Bool.not_eq_true] at hpar
    rw [hpar]
    simp

/-- The depth-first leaf traversal of a cluster id visits exactly as many
leaves as the cluster's weight, provided the fuel covers the remaining
levels (origin zooms strictly increase along any descent). -/
theorem dfsLeaves_length (P : Proj) (st : Engine) (σ : ℕ) (maxoz : ℤ)
    (hfr : ∀ q, P.fr q = q) (hoz32 : maxoz < 32)
    (hm : MasterOn P st.radius st.extent st.numPoints σ st.treeData maxoz) :
    ∀ (fuel : ℕ) (z : ℤ) (dd : List Node) (nd : Node),
      st.treeData z = some dd → nd ∈ dd → 1 < nd.num →
      maxoz + 1 - z ≤ (fuel : ℤ) →
      (dfsLeaves P st fuel nd.id).length = nd.num := by
  intro fuel
  induction fuel with
  | zero =>
      intro z dd nd hdd hnd hgt hfuel
      obtain ⟨oi, p, b1, b2, -, -⟩ := ((hm z dd hdd).2 nd hnd).2 hgt
      exfalso
      omega
  | succ f ih =>
      intro z dd nd hdd hnd hgt hfuel
      obtain ⟨oi, p, b1, b2, b3, b4⟩ := ((hm z dd hdd).2 nd hnd).2 hgt
      obtain ⟨cdd, hcdd, hq⟩ := childIndices_of_cfacts P st p oi nd.id nd.num
        hfr b4 b3 (by omega)
      obtain ⟨cdd2, hcdd2, rest⟩ := b4
      rw [hcdd] at hcdd2
      injection hcdd2 with hcdd2
      subst hcdd2
      simp only [dfsLeaves, hq]
      rw [List.length_flatMap]
      have hcong : ∀ k ∈ clusterSet cdd nd.id,
          (List.length ∘ fun k =>
            if 1 < (nget cdd k).num then dfsLeaves P st f (nget cdd k).id
            else [(nget cdd k).id]) k = (nget cdd k).num := by
        intro k hk
        have hklt : k < cdd.length := clusterSet_mem_lt cdd nd.id k hk
        have hkmem : nget cdd k ∈ cdd := nget_mem cdd k hklt
        have hknum := ((hm ((p : ℤ) + 1) cdd hcdd).2 (nget cdd k) hkmem).1
        simp only [Function.comp]
        by_cases hkc : 1 < (nget cdd k).num
        · rw [if_pos hkc]
          exact ih ((p : ℤ) + 1) cdd (nget cdd k) hcdd hkmem hkc (by omega)
        · rw [if_neg hkc]
          simp only [List.length_cons, List.length_nil]
          omega
      rw [List.map_congr_left hcong]
      exact rest.2.2.2.1

/-! Arithmetic of etake over ℕ∞ limits, used by the pagination proof. -/

/-- Every extended-natural limit is infinity or a finite natural. -/
theorem enat_cases (m : ℕ∞) : m = ⊤ ∨ ∃ n : ℕ, m = (n : ℕ∞) := by
  cases m with
  | top => exact Or.inl rfl
  | coe n => exact Or.inr ⟨n, rfl⟩

theorem etake_coe (n : ℕ) (l : List ℤ) : etake (n : ℕ∞) l = l.take n := rfl

theorem enat_sub_coe (n r : ℕ) : (n : ℕ∞) - (r : ℕ∞) = ((n - r : ℕ) : ℕ∞) := rfl

theorem etake_of_le (m : ℕ∞) (l : List ℤ) (h : (l.length : ℕ∞) ≤ m) :
    etake m l = l := by
  rcases enat_cases m with rfl | ⟨n, rfl⟩
  · rfl
  · rw [etake_coe]
    exact List.take_of_length_le (by exact_mod_cast h)

theorem etake_append_left (m : ℕ∞) (A B : List ℤ) (h : m ≤ (A.length : ℕ∞)) :
    etake m (A ++ B) = etake m A := by
  rcases enat_cases m with rfl | ⟨n, rfl⟩
  · rw [top_le_iff] at h
    exact absurd h (by simp)
  · rw [etake_coe, etake_coe, List.take_append_eq_append_take,
      Nat.sub_eq_zero_of_le (by exact_mod_cast h), List.take_zero,
      List.append_nil]

theorem etake_append_right (m : ℕ∞) (A B : List ℤ) (h : (A.length : ℕ∞) ≤ m) :
    etake m (A ++ B) = A ++ etake (m - (A.length : ℕ∞)) B := by
  rcases enat_cases m with rfl | ⟨n, rfl⟩
  · rfl
  · rw [etake_coe, enat_sub_coe, etake_coe, List.take_append_eq_append_take,
      List.take_of_length_le (by exact_mod_cast h)]

/-- If, after appending the truncation, the accumulated length is still
below the limit, the truncation was in fact the whole list. -/
theorem etake_full_of_lt (limit : ℕ∞) (r : ℕ) (X : List ℤ)
    (h : ((r + (etake (limit - r) X).length : ℕ) : ℕ∞) < limit) :
    etake (limit - r) X = X := by
  rcases enat_cases limit with rfl | ⟨n, rfl⟩
  · rfl
  · rw [enat_sub_coe, etake_coe] at h ⊢
    have hlt : r + (X.take (n - r)).length < n := by exact_mod_cast h
    rw [List.length_take] at hlt
    apply List.take_of_length_le
    omega

/-- If appending the truncation reached the limit, the truncation already
lies inside the first list of an append. -/
theorem etake_stop_le (limit : ℕ∞) (r : ℕ) (A : List ℤ)
    (hr : (r : ℕ∞) < limit)
    (h : limit ≤ ((r + (etake (limit - r) A).length : ℕ) : ℕ∞)) :
    limit - (r : ℕ∞) ≤ (A.length : ℕ∞) := by
  rcases enat_cases limit with rfl | ⟨n, rfl⟩
  · rw [top_le_iff] at h
    exact absurd h (WithTop.natCast_ne_top _)
  · rw [enat_sub_coe, etake_coe] at h
    rw [enat_sub_coe]
    have hle : n ≤ r + (A.take (n - r)).length := by exact_mod_cast h
    have hrn : r < n := by exact_mod_cast hr
    rw [List.length_take] at hle
    exact_mod_cast (by omega : n - r ≤ A.length)

/-- Once the loop of _appendLeafIndices has returned, the remaining
iterations leave the state untouched. -/
theorem leafFold_frozen (d : List Node) (limit : ℕ∞) (offset : ℕ)
    (rec : List ℤ → ℤ → ℕ → List ℤ × ℕ) :
    ∀ (cs : List ℕ) (res : List ℤ) (sk : ℕ),
      cs.foldl (leafChildStep d limit offset rec) (res, sk, true)
        = (res, sk, true) := by
  intro cs
  induction cs with
  | nil => intro res sk; rfl
  | cons a cs ih =>
      intro res sk
      rw [List.foldl_cons]
      have : leafChildStep d limit offset rec (res, sk, true) a = (res, sk, true) := by
        unfold leafChildStep
        rw [if_pos rfl]
      rw [this]
      exact ih res sk

theorem etake_nil (m : ℕ∞) : etake m [] = [] := by
  rcases enat_cases m with rfl | ⟨n, rfl⟩
  · rfl
  · rw [etake_coe, List.take_nil]

theorem le_sub_of_add_lt (limit : ℕ∞) (a b : ℕ)
    (h : ((a + b : ℕ) : ℕ∞) < limit) : (b : ℕ∞) ≤ limit - (a : ℕ∞) := by
  rcases enat_cases limit with rfl | ⟨n, rfl⟩
  · rw [ENat.top_sub_coe]
    exact le_top
  · rw [enat_sub_coe]
    have : a + b < n := by exact_mod_cast h
    exact_mod_cast (by omega : b ≤ n - a)

theorem enat_sub_add (limit : ℕ∞) (a b : ℕ) :
    limit - ((a + b : ℕ) : ℕ∞) = limit - (a : ℕ∞) - (b : ℕ∞) := by
  rcases enat_cases limit with rfl | ⟨n, rfl⟩
  · rw [ENat.top_sub_coe, ENat.top_sub_coe, ENat.top_sub_coe]
  · rw [enat_sub_coe, enat_sub_coe, enat_sub_coe]
    congr 1
    omega

theorem enat_one_step (limit : ℕ∞) (a : ℕ) (h1 : limit ≤ ((a + 1 : ℕ) : ℕ∞))
    (h2 : (a : ℕ∞) < limit) : limit - (a : ℕ∞) = ((1 : ℕ) : ℕ∞) := by
  rcases enat_cases limit with rfl | ⟨n, rfl⟩
  · rw [top_le_iff] at h1
    exact absurd h1 (WithTop.natCast_ne_top _)
  · rw [enat_sub_coe]
    have e1 : n ≤ a + 1 := by exact_mod_cast h1
    have e2 : a < n := by exact_mod_cast h2
    congr 1
    omega

/-- The pagination behavior of the children loop of _appendLeafIndices:
given that the recursive descent paginates each child cluster correctly
(and that each child's leaf-list length is its weight, used to skip whole
subtrees), the loop extends the accumulator with exactly the window of the
concatenated child leaf lists that starts offset - skipped leaves in and
stops when the accumulated result reaches the limit. -/
theorem leafFold_pagination (cdd : List Node) (limit : ℕ∞) (offset : ℕ)
    (rec : List ℤ → ℤ → ℕ → List ℤ × ℕ) (CL : ℕ → List ℤ) :
    ∀ (cs : List ℕ),
    (∀ k ∈ cs, 1 < (nget cdd k).num → ∀ (res : List ℤ) (sk : ℕ), sk ≤ offset →
      (res.length : ℕ∞) < limit →
      (rec res (nget cdd k).id sk).1
        = res ++ etake (limit - res.length) ((CL k).drop (offset - sk)) ∧
      (((rec res (nget cdd k).id sk).1.length : ℕ∞) < limit →
        (rec res (nget cdd k).id sk).2 = min offset (sk + (CL k).length))) →
    (∀ k ∈ cs, 1 < (nget cdd k).num → (CL k).length = (nget cdd k).num) →
    (∀ k ∈ cs, ¬ 1 < (nget cdd k).num → CL k = [(nget cdd k).id]) →
    ∀ (res : List ℤ) (skipped : ℕ), skipped ≤ offset →
      (res.length : ℕ∞) < limit →
      (cs.foldl (leafChildStep cdd limit offset rec) (res, skipped, false)).1
        = res ++ etake (limit - res.length)
            ((cs.flatMap CL).drop (offset - skipped)) ∧
      (((cs.foldl (leafChildStep cdd limit offset rec)
          (res, skipped, false)).1.length : ℕ∞) < limit →
        (cs.foldl (leafChildStep cdd limit offset rec)
          (res, skipped, false)).2.1
            = min offset (skipped + (cs.flatMap CL).length)) := by
  intro cs
  induction cs with
  | nil =>
      intro _ _ _ res skipped hsk _
      refine ⟨by simp [etake_nil], fun _ => ?_⟩
      simp only [List.foldl_nil, List.flatMap_nil, List.length_nil]
      omega
  | cons k cs ih =>
      intro hrec hclen hleaf res skipped hsk hres
      have hrec' := fun k2 hk2 => hrec k2 (List.mem_cons_of_mem k hk2)
      have hclen' := fun k2 hk2 => hclen k2 (List.mem_cons_of_mem k hk2)
      have hleaf' := fun k2 hk2 => hleaf k2 (List.mem_cons_of_mem k hk2)
      have hkmem : k ∈ k :: cs := List.mem_cons_self k cs
      rw [List.foldl_cons, List.flatMap_cons]
      by_cases hc : 1 < (nget cdd k).num
      · have hCLlen : (CL k).length = (nget cdd k).num := hclen k hkmem hc
        by_cases hskip : skipped + (nget cdd k).num ≤ offset
        · -- whole subtree skipped
          have hstep : leafChildStep cdd limit offset rec (res, skipped, false) k
              = (res, skipped + (nget cdd k).num, false) := by
            unfold leafChildStep
            simp [hc, hskip]
          rw [hstep]
          obtain ⟨g1, g2⟩ := ih hrec' hclen' hleaf' res
            (skipped + (nget cdd k).num) (by omega) hres
          have hdrop : (CL k ++ cs.flatMap CL).drop (offset - skipped)
              = (cs.flatMap CL).drop (offset - (skipped + (nget cdd k).num)) := by
            rw [List.drop_append_eq_append_drop,
              List.drop_eq_nil_of_le (by omega), List.nil_append]
            congr 1
            omega
          refine ⟨by rw [g1, hdrop], fun hlt => ?_⟩
          rw [g2 hlt, List.length_append, hCLlen]
          omega
        · -- partially skipped or emitted subtree: descend
          obtain ⟨e1, e2⟩ := hrec k hkmem hc res skipped hsk hres
          by_cases hstop : limit ≤ (((rec res (nget cdd k).id skipped).1.length : ℕ∞))
          · have hstep : leafChildStep cdd limit offset rec (res, skipped, false) k
                = ((rec res (nget cdd k).id skipped).1,
                   (rec res (nget cdd k).id skipped).2, true) := by
              unfold leafChildStep
              simp [hc, hskip, hstop]
            rw [hstep, leafFold_frozen]
            have hstop2 : limit ≤ ((res.length
                + (etake (limit - res.length)
                  ((CL k).drop (offset - skipped))).length : ℕ) : ℕ∞) := by
              rw [e1, List.length_append] at hstop
              exact_mod_cast hstop
            have hA := etake_stop_le limit res.length
              ((CL k).drop (offset - skipped)) hres hstop2
            have h0 : offset - skipped - (CL k).length = 0 := by omega
            have hdrop : (CL k ++ cs.flatMap CL).drop (offset - skipped)
                = (CL k).drop (offset - skipped) ++ cs.flatMap CL := by
              rw [List.drop_append_eq_append_drop, h0, List.drop_zero]
            have hleft := etake_append_left (limit - (res.length : ℕ∞))
              ((CL k).drop (offset - skipped)) (cs.flatMap CL) hA
            refine ⟨?_, fun hlt => absurd hstop (not_le.mpr hlt)⟩
            rw [hdrop, hleft]
            exact e1
          · have hr2lt : (((rec res (nget cdd k).id skipped).1.length : ℕ∞)) < limit :=
              lt_of_not_le hstop
            have hstep : leafChildStep cdd limit offset rec (res, skipped, false) k
                = ((rec res (nget cdd k).id skipped).1,
                   (rec res (nget cdd k).id skipped).2, false) := by
              unfold leafChildStep
              simp [hc, hskip, hstop]
            rw [hstep]
            have hfull : etake (limit - res.length) ((CL k).drop (offset - skipped))
                = (CL k).drop (offset - skipped) := by
              apply etake_full_of_lt
              rw [e1, List.length_append] at hr2lt
              exact_mod_cast hr2lt
            have hr2 : (rec res (nget cdd k).id skipped).1
                = res ++ (CL k).drop (offset - skipped) := by rw [e1, hfull]
            have hsnd : (rec res (nget cdd k).id skipped).2 = offset := by
              rw [e2 hr2lt, hCLlen]
              omega
            rw [hr2, hsnd]
            obtain ⟨g1, g2⟩ := ih hrec' hclen' hleaf'
              (res ++ (CL k).drop (offset - skipped)) offset (le_refl offset)
              (by rw [← hr2]; exact hr2lt)
            have h0 : offset - skipped - (CL k).length = 0 := by omega
            have hdrop : (CL k ++ cs.flatMap CL).drop (offset - skipped)
                = (CL k).drop (offset - skipped) ++ cs.flatMap CL := by
              rw [List.drop_append_eq_append_drop, h0, List.drop_zero]
            have hAle : (((CL k).drop (offset - skipped)).length : ℕ∞)
                ≤ limit - (res.length : ℕ∞) := by
              apply le_sub_of_add_lt
              rw [hr2, List.length_append] at hr2lt
              exact_mod_cast hr2lt
            have hright := etake_append_right (limit - (res.length : ℕ∞))
              ((CL k).drop (offset - skipped)) (cs.flatMap CL) hAle
            refine ⟨?_, fun hlt => ?_⟩
            · rw [g1, hdrop, hright, Nat.sub_self, List.drop_zero,
                List.length_append, ← List.append_assoc]
              congr 2
              rw [enat_sub_add]
            · rw [g2 hlt, List.length_append, hCLlen]
              omega
      · -- leaf child
        have hCL : CL k = [(nget cdd k).id] := hleaf k hkmem hc
        by_cases hlt2 : skipped < offset
        · have hstep : leafChildStep cdd limit offset rec (res, skipped, false) k
              = (res, skipped + 1, false) := by
            unfold leafChildStep
            simp [hc, hlt2]
          rw [hstep]
          obtain ⟨g1, g2⟩ := ih hrec' hclen' hleaf' res (skipped + 1) (by omega) hres
          have hdrop : (CL k ++ cs.flatMap CL).drop (offset - skipped)
              = (cs.flatMap CL).drop (offset - (skipped + 1)) := by
            rw [hCL, List.drop_append_eq_append_drop]
            have h1 : ([(nget cdd k).id] : List ℤ).length ≤ offset - skipped := by
              simp only [List.length_singleton]
              omega
            rw [List.drop_eq_nil_of_le h1, List.nil_append]
            congr 1
          refine ⟨by rw [g1, hdrop], fun hlt => ?_⟩
          rw [g2 hlt, hCL]
          have hL : (([(nget cdd k).id] : List ℤ) ++ cs.flatMap CL).length
              = 1 + (cs.flatMap CL).length := by
            simp only [List.length_append, List.length_singleton]
          omega
        · have hsk0 : skipped = offset := by omega
          by_cases hstop : limit ≤ (((res ++ [(nget cdd k).id]).length : ℕ∞))
          · have hstep : leafChildStep cdd limit offset rec (res, skipped, false) k
                = (res ++ [(nget cdd k).id], skipped, true) := by
              unfold leafChildStep
              simp [hc, hlt2]
              simpa using hstop
            rw [hstep, leafFold_frozen]
            have hone : limit - (res.length : ℕ∞) = ((1 : ℕ) : ℕ∞) := by
              apply enat_one_step limit res.length _ hres
              rw [List.length_append] at hstop
              exact_mod_cast hstop
            refine ⟨?_, fun hlt => absurd hstop (not_le.mpr hlt)⟩
            rw [hCL, hsk0, Nat.sub_self, List.drop_zero, hone, etake_coe]
            simp
          · have hr2lt : (((res ++ [(nget cdd k).id]).length : ℕ∞)) < limit :=
              lt_of_not_le hstop
            have hstep : leafChildStep cdd limit offset rec (res, skipped, false) k
                = (res ++ [(nget cdd k).id], skipped, false) := by
              unfold leafChildStep
              simp [hc, hlt2]
              simpa using hstop
            rw [hstep]
            obtain ⟨g1, g2⟩ := ih hrec' hclen' hleaf'
              (res ++ [(nget cdd k).id]) skipped (by omega) hr2lt
            have hAle : ((( [(nget cdd k).id] : List ℤ)).length : ℕ∞)
                ≤ limit - (res.length : ℕ∞) := by
              apply le_sub_of_add_lt
              rw [List.length_append] at hr2lt
              exact_mod_cast hr2lt
            have hright := etake_append_right (limit - (res.length : ℕ∞))
              ([(nget cdd k).id] : List ℤ) (cs.flatMap CL) hAle
            refine ⟨?_, fun hlt => ?_⟩
            · rw [g1, hCL, hsk0, Nat.sub_self, List.drop_zero, List.drop_zero,
                hright, List.length_append, ← List.append_assoc]
              congr 2
              rw [enat_sub_add]
            · rw [g2 hlt, hCL, hsk0]
              have hL : (([(nget cdd k).id] : List ℤ) ++ cs.flatMap CL).length
                  = 1 + (cs.flatMap CL).length := by
                simp only [List.length_append, List.length_singleton]
              omega

/-- _appendLeafIndices paginates the depth-first leaf sequence: starting
from accumulator res with skipped leaves already accounted, it appends the
window of the cluster's leaf list that drops offset - skipped entries and
truncates at limit - res.length, and when the limit is not reached it
reports min offset (skipped + number of leaves) as the skipped count. -/
theorem appendLeafIndices_pagination (P : Proj) (st : Engine) (σ : ℕ)
    (maxoz : ℤ) (hfr : ∀ q, P.fr q = q) (hoz32 : maxoz < 32)
    (hm : MasterOn P st.radius st.extent st.numPoints σ st.treeData maxoz) :
    ∀ (fuel : ℕ) (z : ℤ) (dd : List Node) (nd : Node),
      st.treeData z = some dd → nd ∈ dd → 1 < nd.num →
      maxoz + 1 - z ≤ (fuel : ℤ) →
      ∀ (res : List ℤ) (skipped : ℕ) (limit : ℕ∞) (offset : ℕ),
        skipped ≤ offset → (res.length : ℕ∞) < limit →
        (appendLeafIndices P st fuel res nd.id limit offset skipped).1
          = res ++ etake (limit - res.length)
              ((dfsLeaves P st fuel nd.id).drop (offset - skipped)) ∧
        (((appendLeafIndices P st fuel res nd.id limit offset
            skipped).1.length : ℕ∞) < limit →
          (appendLeafIndices P st fuel res nd.id limit offset skipped).2
            = min offset (skipped + (dfsLeaves P st fuel nd.id).length)) := by
  intro fuel
  induction fuel with
  | zero =>
      intro z dd nd hdd hnd hgt hfuel
      obtain ⟨oi, p, b1, b2, -, -⟩ := ((hm z dd hdd).2 nd hnd).2 hgt
      exfalso
      omega
  | succ f ih =>
      intro z dd nd hdd hnd hgt hfuel res skipped limit offset hsk hres
      obtain ⟨oi, p, b1, b2, b3, b4⟩ := ((hm z dd hdd).2 nd hnd).2 hgt
      obtain ⟨cdd, hcdd, hq⟩ := childIndices_of_cfacts P st p oi nd.id nd.num
        hfr b4 b3 (by omega)
      simp only [appendLeafIndices, dfsLeaves, hq]
      refine leafFold_pagination cdd limit offset
        (fun res cid sk => appendLeafIndices P st f res cid limit offset sk)
        (fun k => if 1 < (nget cdd k).num then dfsLeaves P st f (nget cdd k).id
          else [(nget cdd k).id])
        (clusterSet cdd nd.id) ?_ ?_ ?_ res skipped hsk hres
      · intro k hk hkc res2 sk2 hsk2 hres2
        have hklt : k < cdd.length := clusterSet_mem_lt cdd nd.id k hk
        have hkmem : nget cdd k ∈ cdd := nget_mem cdd k hklt
        have hpair := ih ((p : ℤ) + 1) cdd (nget cdd k) hcdd hkmem hkc
          (by omega) res2 sk2 limit offset hsk2 hres2
        simpa [hkc] using hpair
      · intro k hk hkc
        have hklt : k < cdd.length := clusterSet_mem_lt cdd nd.id k hk
        have hkmem : nget cdd k ∈ cdd := nget_mem cdd k hklt
        simp only [if_pos hkc]
        exact dfsLeaves_length P st σ maxoz hfr hoz32 hm f ((p : ℤ) + 1) cdd
          (nget cdd k) hcdd hkmem hkc (by omega)
      · intro k hk hkc
        simp only [if_neg hkc]

/-- getLeaves on a cluster produced by the current load is the window of
the depth-first leaf sequence: drop offset entries, then truncate at
limit.  Requires a positive limit, since the source loop appends the
first leaf before comparing the result length against the limit. -/
theorem getLeaves_eq (P : Proj) (st : Engine) (σ : ℕ) (maxoz : ℤ)
    (hfr : ∀ q, P.fr q = q) (hoz32 : maxoz < 32)
    (hm : MasterOn P st.radius st.extent st.numPoints σ st.treeData maxoz)
    (z : ℤ) (dd : List Node) (nd : Node)
    (hdd : st.treeData z = some dd) (hnd : nd ∈ dd) (hgt : 1 < nd.num)
    (hfuel : maxoz + 1 - z ≤ ((st.maxZoom + 2 : ℕ) : ℤ))
    (limit : ℕ∞) (offset : ℕ) (hlim : 0 < limit) :
    getLeaves P st nd.id limit offset
      = etake limit ((dfsLeaves P st (st.maxZoom + 2) nd.id).drop offset) := by
  have h := (appendLeafIndices_pagination P st σ maxoz hfr hoz32 hm
    (st.maxZoom + 2) z dd nd hdd hnd hgt hfuel [] 0 limit offset
    (Nat.zero_le _) (by simpa using hlim)).1
  unfold getLeaves
  rw [h]
  simp

/-! Helper lemmas about the state after a successful load, the per-entry
output construction, and the bounded unfoldings of the query helpers. -/

theorem load_proj_fields (P : Proj) (st : Engine) (tbl : Table)
    (mask : Option (List Bool)) (coords : List (Option ℚ))
    (hgeom : tbl.geom = some coords) :
    (load P st tbl mask).1.radius = st.radius ∧
    (load P st tbl mask).1.extent = st.extent ∧
    (load P st tbl mask).1.minZoom = st.minZoom ∧
    (load P st tbl mask).1.maxZoom = st.maxZoom ∧
    (load P st tbl mask).1.minPoints = st.minPoints ∧
    (load P st tbl mask).1.numPoints = tbl.numRows := by
  rw [load_eq_of_geom P st tbl mask coords hgeom]
  exact ⟨rfl, rfl, rfl, rfl, rfl, rfl⟩

/-- The master invariant of load_facts, re-expressed over the projections
of the post-load state (the form the query lemmas consume). -/
theorem load_master (P : Proj) (st : Engine) (tbl : Table)
    (mask : Option (List Bool)) (coords : List (Option ℚ))
    (hgeom : tbl.geom = some coords) :
    MasterOn P (load P st tbl mask).1.radius (load P st tbl mask).1.extent
      (load P st tbl mask).1.numPoints
      (leafData P coords mask tbl.numRows).length
      ((load P st tbl mask).1.treeData)
      (((load P st tbl mask).1.maxZoom : ℤ) + 1) := by
  obtain ⟨h1, h2, -, h4, -, h6⟩ := load_proj_fields P st tbl mask coords hgeom
  rw [h1, h2, h4, h6]
  exact (load_facts P st tbl mask coords hgeom).1

theorem mkEntry_eq (P : Proj) (st : Engine) (d : List Node) (j : ℕ) :
    mkEntry P st d j
      = if 1 < (nget d j).num then
          ⟨some (P.xLng (nget d j).x), some (P.yLat (nget d j).y),
            (nget d j).num, (nget d j).id, true⟩
        else
          ⟨cfget st (2 * (nget d j).id), cfget st (2 * (nget d j).id + 1),
            (nget d j).num, (nget d j).id, false⟩ := rfl

theorem mkEntry_cnt (P : Proj) (st : Engine) (d : List Node) (j : ℕ) :
    (mkEntry P st d j).cnt = (nget d j).num := by
  rw [mkEntry_eq]
  split <;> rfl

theorem mkEntry_leaf_pos (P : Proj) (st : Engine) (d : List Node) (j : ℕ)
    (h : (mkEntry P st d j).isC = false) :
    (mkEntry P st d j).posx = cfget st (2 * (mkEntry P st d j).id) ∧
    (mkEntry P st d j).posy = cfget st (2 * (mkEntry P st d j).id + 1) := by
  rw [mkEntry_eq] at h ⊢
  split at h
  · exact absurd h (by simp)
  · rw [if_neg (by assumption)]
    exact ⟨rfl, rfl⟩

theorem cfget_congr (st1 st2 : Engine) (k : ℤ)
    (h : st1.coordValues = st2.coordValues) : cfget st1 k = cfget st2 k := by
  unfold cfget
  rw [h]


theorem getClustersBody_eq_none (P : Proj) (st : Engine)
    (a b c d zoom : ℚ) (htd : st.treeData (limitZoom st zoom) = none) :
    getClustersBody P st a b c d zoom = (st, []) := by
  simp only [getClustersBody]
  rw [htd]

theorem getClustersBody_snd_eq (P : Proj) (st : Engine)
    (a b c d zoom : ℚ) (dd : List Node)
    (htd : st.treeData (limitZoom st zoom) = some dd) :
    (getClustersBody P st a b c d zoom).2
      = (rangeIdx P dd (lngX a) (P.latY d) (lngX c) (P.latY b)).map
          (mkEntry P st dd) := by
  simp only [getClustersBody]
  rw [htd]

theorem getClustersBody_snd_good (P : Proj) (st : Engine) (a b c d zoom : ℚ) :
    ∀ e ∈ (getClustersBody P st a b c d zoom).2, e.isC = false →
      e.posx = cfget st (2 * e.id) ∧ e.posy = cfget st (2 * e.id + 1) := by
  rcases htd : st.treeData (limitZoom st zoom) with _ | dd
  · rw [getClustersBody_eq_none P st a b c d zoom htd]
    intro e he
    simp at he
  · rw [getClustersBody_snd_eq P st a b c d zoom dd htd]
    intro e he hc
    obtain ⟨j, hj, rfl⟩ := List.mem_map.mp he
    exact mkEntry_leaf_pos P st dd j hc

theorem getClustersBody_buf (P : Proj) (st : Engine) (a b c d zoom : ℚ) :
    (getClustersBody P st a b c d zoom).1.bufEntries
      = (getClustersBody P st a b c d zoom).2
        ++ st.bufEntries.drop (getClustersBody P st a b c d zoom).2.length := by
  rcases htd : st.treeData (limitZoom st zoom) with _ | dd
  · rw [getClustersBody_eq_none P st a b c d zoom htd]
    simp
  · simp only [getClustersBody]
    rw [htd]

theorem getClustersBody_coord (P : Proj) (st : Engine) (a b c d zoom : ℚ) :
    (getClustersBody P st a b c d zoom).1.coordValues = st.coordValues := by
  rcases htd : st.treeData (limitZoom st zoom) with _ | dd
  · rw [getClustersBody_eq_none P st a b c d zoom htd]
  · simp only [getClustersBody]
    rw [htd]

/-- One-fuel unfolding of getClustersF: with no fuel left a nested split
would return the state unchanged with no entries, so a one-fuel call is a
single body query unless its box still wraps. -/
theorem getClustersF_one_eq (P : Proj) (st : Engine) (b0 b1 b2 b3 zoom : ℚ) :
    getClustersF P 1 st (b0, b1, b2, b3) zoom
      = (if 360 ≤ b2 - b0 then
          getClustersBody P st (-180) (max (-90) (min 90 b1)) 180
            (max (-90) (min 90 b3)) zoom
        else if (if b2 = 180 then 180 else normLng b2) < normLng b0 then
          (st, [])
        else
          getClustersBody P st (normLng b0) (max (-90) (min 90 b1))
            (if b2 = 180 then 180 else normLng b2) (max (-90) (min 90 b3))
            zoom) := by
  show getClustersF P (0 + 1) st (b0, b1, b2, b3) zoom = _
  simp only [getClustersF, List.length_nil, List.take_zero, List.append_nil]

theorem getClustersF_one_snd_good (P : Proj) (st : Engine)
    (bbox : ℚ × ℚ × ℚ × ℚ) (zoom : ℚ) :
    ∀ e ∈ (getClustersF P 1 st bbox zoom).2, e.isC = false →
      e.posx = cfget st (2 * e.id) ∧ e.posy = cfget st (2 * e.id + 1) := by
  obtain ⟨b0, b1, b2, b3⟩ := bbox
  rw [getClustersF_one_eq]
  split
  · exact getClustersBody_snd_good P st _ _ _ _ zoom
  · split <;> split <;>
      first
        | (intro e he; simp at he)
        | exact getClustersBody_snd_good P st _ _ _ _ zoom

theorem getClustersF_one_buf (P : Proj) (st : Engine)
    (bbox : ℚ × ℚ × ℚ × ℚ) (zoom : ℚ) :
    (getClustersF P 1 st bbox zoom).1.bufEntries
      = (getClustersF P 1 st bbox zoom).2
        ++ st.bufEntries.drop (getClustersF P 1 st bbox zoom).2.length := by
  obtain ⟨b0, b1, b2, b3⟩ := bbox
  rw [getClustersF_one_eq]
  split
  · exact getClustersBody_buf P st _ _ _ _ zoom
  · split <;> split <;>
      first
        | simp
        | exact getClustersBody_buf P st _ _ _ _ zoom

theorem getClustersF_one_coord (P : Proj) (st : Engine)
    (bbox : ℚ × ℚ × ℚ × ℚ) (zoom : ℚ) :
    (getClustersF P 1 st bbox zoom).1.coordValues = st.coordValues := by
  obtain ⟨b0, b1, b2, b3⟩ := bbox
  rw [getClustersF_one_eq]
  split
  · exact getClustersBody_coord P st _ _ _ _ zoom
  · split <;> split <;>
      first
        | rfl
        | exact getClustersBody_coord P st _ _ _ _ zoom

theorem expLoop_ret (P : Proj) (st : Engine) (f : ℕ) (cid : ℤ) (e : ℤ)
    (hguard : e ≤ (st.maxZoom : ℤ))
    (hlen : (getChildIndices P st cid).1.length ≠ 1) :
    expLoop P st (f + 1) cid e = e + 1 := by
  simp only [expLoop]
  rw [if_pos hguard, if_pos hlen]

theorem expSpecLoop_ret (P : Proj) (st : Engine) (f : ℕ) (cid : ℤ) (e : ℤ)
    (hlen : (getChildIndices P st cid).1.length ≠ 1) :
    expansionZoomSpecLoop P st (f + 1) cid e = e + 1 := by
  simp only [expansionZoomSpecLoop]
  rw [if_pos hlen]

/-! The ten claims. -/

/-- Claim C10 (confirmed): after every completed load and for every zoom
level z in [minZoom, maxZoom + 1], the sum of the weight field over all
nodes of Level(z) equals indexedPointCount: every clustering pass conserves
total weight. -/
theorem c10_weight_conservation (P : Proj) (st : Engine) (tbl : Table)
    (mask : Option (List Bool)) (coords : List (Option ℚ))
    (hgeom : tbl.geom = some coords)
    (z : ℤ) (hz1 : (st.minZoom : ℤ) ≤ z) (hz2 : z ≤ (st.maxZoom : ℤ) + 1) :
    ∃ dd, (load P st tbl mask).1.treeData z = some dd ∧
      (dd.map Node.num).sum = indexedPointCount (load P st tbl mask).1 := by
  obtain ⟨hm, hlv, hipc⟩ := load_facts P st tbl mask coords hgeom
  obtain ⟨dd, hdd⟩ := hlv z hz1 hz2
  exact ⟨dd, hdd, ((hm z dd hdd).1).trans hipc.symm⟩

theorem c10_weight_conservation_witness :
    ((engW.minZoom : ℤ) ≤ 1 ∧ (1 : ℤ) ≤ (engW.maxZoom : ℤ) + 1) ∧
    ∃ dd, (load idProj engW tblW none).1.treeData 1 = some dd ∧
      (dd.map Node.num).sum = indexedPointCount (load idProj engW tblW none).1 :=
  ⟨⟨by decide, by decide⟩,
   c10_weight_conservation idProj engW tblW none
     [some (-180), some 0, some (-180), some 0] rfl 1 (by decide) (by decide)⟩

/-- Claim C1 (corrected): the encoded id of every cluster node of a load is
32 * originIndex + (originZoom + 1) + table.numRows, where the constant is
the row count of the loaded table (this.numPoints), not the post-mask
indexed count, and originZoom + 1 is the zoom of the level the cluster's
children live on; decoding with the same constant recovers that children
level as _getOriginZoom and the origin index as _getOriginId. -/
theorem c1_cluster_id_encoding (P : Proj) (st : Engine) (tbl : Table)
    (mask : Option (List Bool)) (coords : List (Option ℚ))
    (hgeom : tbl.geom = some coords) (hoz32 : (st.maxZoom : ℤ) + 1 < 32)
    (z : ℤ) (dd : List Node) (nd : Node)
    (hdd : (load P st tbl mask).1.treeData z = some dd)
    (hnd : nd ∈ dd) (hgt : 1 < nd.num) :
    ∃ oi p : ℕ, nd.id = 32 * (oi : ℤ) + ((p : ℤ) + 1) + tbl.numRows ∧
      z < (p : ℤ) + 1 ∧ (p : ℤ) + 1 ≤ (st.maxZoom : ℤ) + 1 ∧
      getOriginZoom (load P st tbl mask).1 nd.id = (p : ℤ) + 1 ∧
      getOriginId (load P st tbl mask).1 nd.id = (oi : ℤ) := by
  obtain ⟨hm, -, -⟩ := load_facts P st tbl mask coords hgeom
  obtain ⟨oi, p, b1, b2, b3, -⟩ := ((hm z dd hdd).2 nd hnd).2 hgt
  have hN : (load P st tbl mask).1.numPoints = tbl.numRows :=
    (load_proj_fields P st tbl mask coords hgeom).2.2.2.2.2
  have hdec := decode_encoded tbl.numRows oi ((p : ℤ) + 1) (by omega) (by omega)
  refine ⟨oi, p, b3, b1, b2, ?_, ?_⟩
  · rw [getOriginZoom, hN, b3]
    exact hdec.1
  · rw [getOriginId, hN, b3]
    exact hdec.2

theorem c1_cluster_id_encoding_witness :
    ((load idProj engW tblW none).1.treeData 2 = some [ndW] ∧ 1 < ndW.num) ∧
    ∃ oi p : ℕ, ndW.id = 32 * (oi : ℤ) + ((p : ℤ) + 1) + tblW.numRows ∧
      (2 : ℤ) < (p : ℤ) + 1 ∧ (p : ℤ) + 1 ≤ (engW.maxZoom : ℤ) + 1 ∧
      getOriginZoom (load idProj engW tblW none).1 ndW.id = (p : ℤ) + 1 ∧
      getOriginId (load idProj engW tblW none).1 ndW.id = (oi : ℤ) :=
  ⟨⟨by with_unfolding_all rfl, by decide⟩,
   c1_cluster_id_encoding idProj engW tblW none
     [some (-180), some 0, some (-180), some 0] rfl (by decide) 2 [ndW] ndW
     (by with_unfolding_all rfl) (List.mem_singleton.mpr rfl) (by decide)⟩

/-- Claim C1, counterexample to the frozen wording: for the masked load stC
the produced cluster node has id 4 while indexedPointCount is 2, and no
pair (originIndex, originZoom) satisfies the claimed encoding equation
together with the claimed decode equations when the constant is
indexedPointCount: encode adds originZoom + 1 but the claimed decode
recovers originZoom, and the constant the source actually adds is the raw
table row count 3, not 2. -/
theorem c1_cluster_id_encoding_counterexample :
    stC.treeData 0 = some [ndC] ∧ 1 < ndC.num ∧ indexedPointCount stC = 2 ∧
    ∀ oi oz : ℕ,
      ¬(ndC.id = 32 * (oi : ℤ) + ((oz : ℤ) + 1) + (indexedPointCount stC : ℤ) ∧
        jsRem (ndC.id - (indexedPointCount stC : ℤ)) 32 = (oz : ℤ) ∧
        jsShr5 (ndC.id - (indexedPointCount stC : ℤ)) = (oi : ℤ)) := by
  refine ⟨by with_unfolding_all rfl, by decide, by with_unfolding_all rfl, ?_⟩
  intro oi oz ⟨h1, h2, h3⟩
  have hic : indexedPointCount stC = 2 := by with_unfolding_all rfl
  have hid : ndC.id = 4 := rfl
  rw [hic, hid] at h1 h2
  have h4 : ((4 : ℤ) - ((2 : ℕ) : ℤ)) = 2 := by norm_num
  rw [h4] at h2
  have h5 : jsRem 2 32 = 2 := by decide
  rw [h5] at h2
  omega

/-- Claim C3 (confirmed): for every cluster node of the current load, the
pointCounts of the entries returned by getChildren(id) sum to the
cluster's own weight, and getLeaves(id) with the default limit (Infinity)
and offset (0) returns exactly weight-many row indices.  fr = id states
that the stored float32 coordinates are exact, so the radius query
recovers the parent-marked set. -/
theorem c3_children_and_leaves_weight (P : Proj) (st : Engine) (tbl : Table)
    (mask : Option (List Bool)) (coords : List (Option ℚ))
    (hfr : ∀ q, P.fr q = q) (hgeom : tbl.geom = some coords)
    (hoz32 : (st.maxZoom : ℤ) + 1 < 32)
    (z : ℤ) (dd : List Node) (nd : Node) (hz0 : 0 ≤ z)
    (hdd : (load P st tbl mask).1.treeData z = some dd)
    (hnd : nd ∈ dd) (hgt : 1 < nd.num) :
    ((getChildren P (load P st tbl mask).1 nd.id).map OutEntry.cnt).sum
        = nd.num ∧
    (getLeaves P (load P st tbl mask).1 nd.id).length = nd.num := by
  have hm := load_master P st tbl mask coords hgeom
  set st' := (load P st tbl mask).1 with hst'
  obtain ⟨oi, p, b1, b2, b3, b4⟩ := ((hm z dd hdd).2 nd hnd).2 hgt
  have h4 : st'.maxZoom = st.maxZoom :=
    (load_proj_fields P st tbl mask coords hgeom).2.2.2.1
  have hoz32' : (st'.maxZoom : ℤ) + 1 < 32 := by
    rw [h4]
    exact hoz32
  constructor
  · obtain ⟨cdd, hcdd, hq⟩ := childIndices_of_cfacts P st' p oi nd.id nd.num
      hfr b4 b3 (by omega)
    obtain ⟨cdd2, hcdd2, -, -, -, hosum, -⟩ := b4
    rw [hcdd] at hcdd2
    injection hcdd2 with he
    subst he
    simp only [getChildren]
    rw [hq, List.map_map]
    have hcong : ∀ j ∈ clusterSet cdd nd.id,
        (OutEntry.cnt ∘ mkEntry P st' cdd) j = (nget cdd j).num :=
      fun j _ => mkEntry_cnt P st' cdd j
    rw [List.map_congr_left hcong]
    exact hosum
  · have hfuel : ((st'.maxZoom : ℤ) + 1) + 1 - z
        ≤ ((st'.maxZoom + 2 : ℕ) : ℤ) := by
      push_cast
      omega
    have hgl := getLeaves_eq P st'
      (leafData P coords mask tbl.numRows).length ((st'.maxZoom : ℤ) + 1)
      hfr hoz32' hm z dd nd hdd hnd hgt hfuel ⊤ 0
      (lt_top_iff_ne_top.mpr (by simp))
    rw [hgl]
    simp only [etake, List.drop_zero]
    exact dfsLeaves_length P st' (leafData P coords mask tbl.numRows).length
      ((st'.maxZoom : ℤ) + 1) hfr hoz32' hm (st'.maxZoom + 2) z dd nd
      hdd hnd hgt (by push_cast; omega)

theorem c3_children_and_leaves_weight_witness :
    ((load idProj engW tblW none).1.treeData 2 = some [ndW] ∧ 1 < ndW.num) ∧
    ((getChildren idProj (load idProj engW tblW none).1 ndW.id).map
        OutEntry.cnt).sum = ndW.num ∧
    (getLeaves idProj (load idProj engW tblW none).1 ndW.id).length
      = ndW.num :=
  ⟨⟨by with_unfolding_all rfl, by decide⟩,
   c3_children_and_leaves_weight idProj engW tblW none
     [some (-180), some 0, some (-180), some 0] (fun _ => rfl) rfl
     (by decide) 2 [ndW] ndW (by decide) (by with_unfolding_all rfl)
     (List.mem_singleton.mpr rfl) (by decide)⟩

/-- Claim C2 (code_bug): for the antimeridian box (170, -10, -170, 10) over
stB, the two sub-queries computed independently return the eastern point
(row 0) and the western point (row 1), but the split path of getClusters
returns the western entry twice: _mergeOutputs copies the eastern view
AFTER the western sub-query has overwritten the shared output buffer, so
the merged result is not the concatenation of the two independent
sub-query results. -/
theorem c2_antimeridian_split_aliasing :
    (getClustersF negProj 1 stB (170, -10, 180, 10) 1).2
        = [⟨some 175, some 0, 1, 0, false⟩] ∧
    (getClustersF negProj 1 stB (-180, -10, -170, 10) 1).2
        = [⟨some (-175), some 0, 1, 1, false⟩] ∧
    (getClusters negProj stB (170, -10, -170, 10) 1).2
        = [⟨some (-175), some 0, 1, 1, false⟩,
           ⟨some (-175), some 0, 1, 1, false⟩] ∧
    (getClusters negProj stB (170, -10, -170, 10) 1).2
      ≠ (getClustersF negProj 1 stB (170, -10, 180, 10) 1).2
        ++ (getClustersF negProj 1 stB (-180, -10, -170, 10) 1).2 := by
  with_unfolding_all decide

/-- Claim C4 (code_bug): load assigns this.numPoints from the new table
BEFORE throwing on a missing geometry column, so a failed load leaves the
previous index in place but changes the decode constant: the previous
load's cluster id 5 decodes to origin zoom 3 (its children level) before
the failed load and to 2 after it, and getChildren for that id drops from
two entries to none. -/
theorem c4_failed_load_mutates_decoding :
    (load idProj stW tblF none).2 = true ∧
    getOriginZoom stW 5 = 3 ∧
    getOriginZoom (load idProj stW tblF none).1 5 = 2 ∧
    (getChildren idProj stW 5).length = 2 ∧
    getChildren idProj (load idProj stW tblF none).1 5 = [] := by
  with_unfolding_all decide

/-- Claim C5 (confirmed): in one _cluster iteration at target zoom z whose
merge condition fails (the candidate total does not exceed the center's
own weight, or falls below minPoints), every neighbor of the radius query
that is still unmarked after the center marking is marked mergedAtZoom = z
and a copy of it (unchanged except for that mark) is appended to the next
level, so its weight cannot be counted again later in the same pass. -/
theorem c5_failed_merge_marks_neighbors (P : Proj) (z : ℕ) (r : ℚ)
    (minPts N : ℕ) (s : List Node × List Node) (i : ℕ)
    (h0 : zle (nget s.1 i).zoom z = false)
    (d1 : List Node)
    (hd1 : d1 = s.1.set i { nget s.1 i with zoom := some (z : ℤ) })
    (nbrs : List ℕ)
    (hnbrs : nbrs = withinIdx P d1 (nget s.1 i).x (nget s.1 i).y r)
    (numPts : ℕ)
    (hnum : numPts = (nget s.1 i).num +
      ((nbrs.filter fun k => !zle (nget d1 k).zoom z).map fun k =>
        (nget d1 k).num).sum)
    (hfail : ¬((nget s.1 i).num < numPts ∧ minPts ≤ numPts))
    (hposi : 1 ≤ (nget s.1 i).num)
    (hpos : ∀ k ∈ nbrs, 1 ≤ (nget d1 k).num) :
    ∀ k ∈ nbrs, zle (nget d1 k).zoom z = false →
      zle (nget (clusterStep P z r minPts N s i).1 k).zoom z = true ∧
      { nget d1 k with zoom := some (z : ℤ) }
        ∈ (clusterStep P z r minPts N s i).2 := by
  intro k hk hkf
  have hkN : (nget d1 k).num
      ∈ ((nbrs.filter fun k => !zle (nget d1 k).zoom z).map fun k =>
          (nget d1 k).num) :=
    List.mem_map_of_mem _ (List.mem_filter.mpr ⟨hk, by simp [hkf]⟩)
  have hsum1 : (nget d1 k).num
      ≤ ((nbrs.filter fun k => !zle (nget d1 k).zoom z).map fun k =>
          (nget d1 k).num).sum :=
    List.single_le_sum (fun _ _ => Nat.zero_le _) _ hkN
  have h1lt : 1 < numPts := by
    have := hpos k hk
    omega
  have hstep : clusterStep P z r minPts N s i
      = nbrs.foldl (copyNbrStep z) (d1, s.2 ++ [nget d1 i]) := by
    unfold clusterStep
    simp only [h0, Bool.false_eq_true, if_false]
    rw [← hd1, ← hnbrs, ← hnum, if_neg hfail, if_pos h1lt]
  rw [hstep]
  have hnbnd : nbrs.Nodup := hnbrs ▸ withinIdx_nodup P d1 _ _ r
  have hnblt : ∀ j ∈ nbrs, j < d1.length := fun j hj =>
    withinIdx_mem_lt P d1 _ _ r j (hnbrs ▸ hj)
  obtain ⟨e1, e2, e3, e4, e5⟩ :=
    copyFold_facts z nbrs (d1, s.2 ++ [nget d1 i]) hnbnd hnblt
  constructor
  · rw [e3 k hk hkf]
    exact zle_coe_self z
  · rw [e5]
    apply List.mem_append_right
    exact List.mem_map_of_mem _ (List.mem_filter.mpr ⟨hk, by simp [hkf]⟩)

theorem c5_failed_merge_marks_neighbors_witness :
    (zle (nget sC5.1 0).zoom 0 = false ∧ ¬((nget sC5.1 0).num < 2 ∧ 3 ≤ 2) ∧
      zle (nget d1C5 1).zoom 0 = false) ∧
    zle (nget (clusterStep idProj 0 1 3 2 sC5 0).1 1).zoom 0 = true ∧
    { nget d1C5 1 with zoom := some (0 : ℤ) }
      ∈ (clusterStep idProj 0 1 3 2 sC5 0).2 :=
  ⟨⟨by with_unfolding_all decide, by decide, by with_unfolding_all decide⟩,
   c5_failed_merge_marks_neighbors idProj 0 1 3 2 sC5 0
     (by with_unfolding_all decide) d1C5 (by with_unfolding_all decide)
     [0, 1] (by with_unfolding_all decide) 2 (by with_unfolding_all decide)
     (by decide) (by decide) (by with_unfolding_all decide)
     1 (by decide) (by with_unfolding_all decide)⟩

/-- Claim C6 (confirmed): for every cluster id of the current load,
getClusterExpansionZoom runs the procedure the spec describes — start at
originZoom - 1, increment while fetching children, stop as soon as the
child count is not exactly 1 (which for a real cluster happens on the very
first iteration, every cluster having at least two children) — so it
agrees with the spec-modelled procedure, both returning the decoded origin
zoom. -/
theorem c6_expansion_zoom_procedure (P : Proj) (st : Engine) (tbl : Table)
    (mask : Option (List Bool)) (coords : List (Option ℚ))
    (hfr : ∀ q, P.fr q = q) (hgeom : tbl.geom = some coords)
    (hoz32 : (st.maxZoom : ℤ) + 1 < 32)
    (z : ℤ) (dd : List Node) (nd : Node)
    (hdd : (load P st tbl mask).1.treeData z = some dd)
    (hnd : nd ∈ dd) (hgt : 1 < nd.num) :
    getClusterExpansionZoom P (load P st tbl mask).1 nd.id
      = expansionZoomSpec P (load P st tbl mask).1 nd.id ∧
    getClusterExpansionZoom P (load P st tbl mask).1 nd.id
      = getOriginZoom (load P st tbl mask).1 nd.id := by
  have hm := load_master P st tbl mask coords hgeom
  set st' := (load P st tbl mask).1 with hst'
  obtain ⟨oi, p, b1, b2, b3, b4⟩ := ((hm z dd hdd).2 nd hnd).2 hgt
  have h4 : st'.maxZoom = st.maxZoom :=
    (load_proj_fields P st tbl mask coords hgeom).2.2.2.1
  obtain ⟨cdd, hcdd, hq⟩ := childIndices_of_cfacts P st' p oi nd.id nd.num
    hfr b4 b3 (by omega)
  obtain ⟨cdd2, hcdd2, -, -, holen, -, -⟩ := b4
  rw [hcdd] at hcdd2
  injection hcdd2 with he
  subst he
  have hoz : getOriginZoom st' nd.id = (p : ℤ) + 1 := by
    rw [getOriginZoom, b3]
    exact (decode_encoded st'.numPoints oi ((p : ℤ) + 1)
      (by omega) (by omega)).1
  have hlen : (getChildIndices P st' nd.id).1.length ≠ 1 := by
    rw [hq]
    show (clusterSet cdd nd.id).length ≠ 1
    omega
  have hguard : (p : ℤ) + 1 - 1 ≤ (st'.maxZoom : ℤ) := by
    rw [h4]
    omega
  have hfe : st'.maxZoom + 40 = (st'.maxZoom + 39) + 1 := rfl
  have hcode : getClusterExpansionZoom P st' nd.id = (p : ℤ) + 1 := by
    rw [getClusterExpansionZoom, hoz, hfe,
      expLoop_ret P st' (st'.maxZoom + 39) nd.id ((p : ℤ) + 1 - 1)
        hguard hlen]
    ring
  have hspec : expansionZoomSpec P st' nd.id = (p : ℤ) + 1 := by
    rw [expansionZoomSpec, hoz, hfe,
      expSpecLoop_ret P st' (st'.maxZoom + 39) nd.id ((p : ℤ) + 1 - 1) hlen]
    ring
  exact ⟨hcode.trans hspec.symm, hcode.trans hoz.symm⟩

theorem c6_expansion_zoom_procedure_witness :
    ((load idProj engW tblW none).1.treeData 2 = some [ndW] ∧ 1 < ndW.num) ∧
    getClusterExpansionZoom idProj (load idProj engW tblW none).1 ndW.id
      = expansionZoomSpec idProj (load idProj engW tblW none).1 ndW.id ∧
    getClusterExpansionZoom idProj (load idProj engW tblW none).1 ndW.id
      = getOriginZoom (load idProj engW tblW none).1 ndW.id :=
  ⟨⟨by with_unfolding_all rfl, by decide⟩,
   c6_expansion_zoom_procedure idProj engW tblW none
     [some (-180), some 0, some (-180), some 0] (fun _ => rfl) rfl
     (by decide) 2 [ndW] ndW (by with_unfolding_all rfl)
     (List.mem_singleton.mpr rfl) (by decide)⟩

/-- Claim C7 (corrected): for every cluster node of the current load and
every limit of at least 1, getLeaves(id, limit, offset) is the window of
the depth-first leaf traversal that skips exactly the first offset leaves
and truncates at limit (so recursion short-circuits once limit leaves are
emitted); with limit = 0 the source still emits the first leaf before
comparing against the limit, so the at-most-limit bound requires
limit >= 1. -/
theorem c7_get_leaves_pagination (P : Proj) (st : Engine) (tbl : Table)
    (mask : Option (List Bool)) (coords : List (Option ℚ))
    (hfr : ∀ q, P.fr q = q) (hgeom : tbl.geom = some coords)
    (hoz32 : (st.maxZoom : ℤ) + 1 < 32)
    (z : ℤ) (dd : List Node) (nd : Node) (hz0 : 0 ≤ z)
    (hdd : (load P st tbl mask).1.treeData z = some dd)
    (hnd : nd ∈ dd) (hgt : 1 < nd.num)
    (limit : ℕ∞) (offset : ℕ) (hlim : 1 ≤ limit) :
    getLeaves P (load P st tbl mask).1 nd.id limit offset
      = etake limit
          ((dfsLeaves P (load P st tbl mask).1
            ((load P st tbl mask).1.maxZoom + 2) nd.id).drop offset) := by
  have hm := load_master P st tbl mask coords hgeom
  set st' := (load P st tbl mask).1 with hst'
  have h4 : st'.maxZoom = st.maxZoom :=
    (load_proj_fields P st tbl mask coords hgeom).2.2.2.1
  have hoz32' : (st'.maxZoom : ℤ) + 1 < 32 := by
    rw [h4]
    exact hoz32
  exact getLeaves_eq P st' (leafData P coords mask tbl.numRows).length
    ((st'.maxZoom : ℤ) + 1) hfr hoz32' hm z dd nd hdd hnd hgt
    (by push_cast; omega) limit offset
    (lt_of_lt_of_le zero_lt_one hlim)

theorem c7_get_leaves_pagination_witness :
    ((load idProj engW tblW none).1.treeData 2 = some [ndW] ∧
      (1 : ℕ∞) ≤ 1) ∧
    getLeaves idProj (load idProj engW tblW none).1 ndW.id 1 1
      = etake 1
          ((dfsLeaves idProj (load idProj engW tblW none).1
            ((load idProj engW tblW none).1.maxZoom + 2) ndW.id).drop 1) :=
  ⟨⟨by with_unfolding_all rfl, le_refl 1⟩,
   c7_get_leaves_pagination idProj engW tblW none
     [some (-180), some 0, some (-180), some 0] (fun _ => rfl) rfl
     (by decide) 2 [ndW] ndW (by decide) (by with_unfolding_all rfl)
     (List.mem_singleton.mpr rfl) (by decide) 1 1 (le_refl 1)⟩

/-- Claim C7, counterexample to the frozen wording: with limit = 0 the
result of getLeaves still holds one row index, because _appendLeafIndices
appends a leaf before comparing result.length against the limit, so "the
result contains at most limit row indices" fails at limit 0. -/
theorem c7_get_leaves_limit_counterexample :
    stW.treeData 2 = some [ndW] ∧
    getLeaves idProj stW ndW.id 0 0 = [0] ∧
    ¬(getLeaves idProj stW ndW.id 0 0).length ≤ 0 := by
  with_unfolding_all decide

/-- Claim C9 (confirmed): whenever the decoded origin level of an identity
holds no node at the decoded origin index — the level is absent, or the
index is at or past the end of the level's data, or negative (as happens
for leaf row indices and for cluster ids kept across a new load) —
getChildren and getLeaves return empty results instead of raising. -/
theorem c9_unresolved_id_empty (P : Proj) (st : Engine) (clusterId : ℤ)
    (h : ∀ d, st.treeData (getOriginZoom st clusterId) = some d →
      (d.length : ℤ) ≤ getOriginId st clusterId ∨
        getOriginId st clusterId < 0) :
    (getChildIndices P st clusterId).1 = [] ∧
    getChildren P st clusterId = [] ∧
    ∀ (limit : ℕ∞) (offset : ℕ), getLeaves P st clusterId limit offset = [] := by
  have h1 : (getChildIndices P st clusterId).1 = [] := by
    simp only [getChildIndices]
    rcases htd : st.treeData (getOriginZoom st clusterId) with _ | d
    · rfl
    · dsimp only
      rcases h d htd with hge | hneg
      · rw [if_pos hge]
      · by_cases hge2 : (d.length : ℤ) ≤ getOriginId st clusterId
        · rw [if_pos hge2]
        · rw [if_neg hge2]
          have hng : ngetZ d (getOriginId st clusterId) = none := by
            unfold ngetZ
            rw [dif_neg]
            intro ⟨hc, _⟩
            omega
          rw [hng]
          rfl
  refine ⟨h1, ?_, ?_⟩
  · simp only [getChildren]
    rw [h1]
    rfl
  · intro limit offset
    show (appendLeafIndices P st (st.maxZoom + 1 + 1) [] clusterId
      limit offset 0).1 = []
    simp only [appendLeafIndices]
    rw [h1]
    rfl

theorem c9_unresolved_id_empty_witness :
    stW.treeData (getOriginZoom stW 6) = none ∧
    getChildren idProj stW 6 = [] ∧ getLeaves idProj stW 6 ⊤ 0 = [] := by
  have happ := c9_unresolved_id_empty idProj stW 6 (by
    intro d hd
    rw [(by with_unfolding_all rfl :
      stW.treeData (getOriginZoom stW 6) = (none : Option (List Node)))] at hd
    cases hd)
  exact ⟨by with_unfolding_all rfl, happ.2.1, happ.2.2 ⊤ 0⟩

/-- Members of the merged output of the antimeridian split: the prefix
taken from the final shared buffer is covered by the western entries
followed by the eastern entries the western write did not overwrite, so
every merged entry is an entry one of the two sub-queries produced. -/
theorem split_merge_good (buf0 : List OutEntry)
    (east west : Engine × List OutEntry)
    (heastbuf : east.1.bufEntries = east.2 ++ buf0.drop east.2.length)
    (hwestbuf : west.1.bufEntries
      = west.2 ++ east.1.bufEntries.drop west.2.length)
    (Good : OutEntry → Prop)
    (hE : ∀ e ∈ east.2, Good e) (hW : ∀ e ∈ west.2, Good e) :
    ∀ e ∈ west.1.bufEntries.take east.2.length ++ west.2, Good e := by
  intro e he
  rcases List.mem_append.mp he with h1 | h2
  · rw [hwestbuf, heastbuf] at h1
    by_cases hwn : west.2.length ≤ east.2.length
    · have h0 : west.2.length - east.2.length = 0 := by omega
      have hd : (east.2 ++ buf0.drop east.2.length).drop west.2.length
          = east.2.drop west.2.length ++ buf0.drop east.2.length := by
        rw [List.drop_append_eq_append_drop, h0, List.drop_zero]
      rw [hd] at h1
      have ht : (west.2 ++ (east.2.drop west.2.length
            ++ buf0.drop east.2.length)).take east.2.length
          = west.2 ++ (east.2.drop west.2.length
            ++ buf0.drop east.2.length).take
              (east.2.length - west.2.length) := by
        rw [List.take_append_eq_append_take,
          List.take_of_length_le (le_of_le_of_eq hwn rfl)]
      rw [ht] at h1
      have hlA : (east.2.drop west.2.length).length
          = east.2.length - west.2.length := List.length_drop _ _
      have ht2 : (east.2.drop west.2.length
            ++ buf0.drop east.2.length).take (east.2.length - west.2.length)
          = east.2.drop west.2.length := by
        rw [List.take_append_eq_append_take,
          List.take_of_length_le (le_of_eq hlA), hlA, Nat.sub_self,
          List.take_zero, List.append_nil]
      rw [ht2] at h1
      rcases List.mem_append.mp h1 with hw | he2
      · exact hW e hw
      · exact hE e (List.mem_of_mem_drop he2)
    · rw [List.take_append_eq_append_take,
        Nat.sub_eq_zero_of_le (by omega), List.take_zero,
        List.append_nil] at h1
      exact hW e (List.mem_of_mem_take h1)
  · exact hW e h2

theorem getClustersF_one_snd_good2 (P : Proj) (st : Engine)
    (bb1 bb2 : ℚ × ℚ × ℚ × ℚ) (zoom : ℚ) :
    ∀ e ∈ (getClustersF P 1 (getClustersF P 1 st bb1 zoom).1 bb2 zoom).2,
      e.isC = false →
      e.posx = cfget st (2 * e.id) ∧ e.posy = cfget st (2 * e.id + 1) := by
  intro e he hc
  obtain ⟨hx, hy⟩ := getClustersF_one_snd_good P
    (getClustersF P 1 st bb1 zoom).1 bb2 zoom e he hc
  have hcv := getClustersF_one_coord P st bb1 zoom
  exact ⟨hx.trans (cfget_congr _ st _ hcv), hy.trans (cfget_congr _ st _ hcv)⟩

theorem getClusters_split_good (P : Proj) (st : Engine)
    (bb1 bb2 : ℚ × ℚ × ℚ × ℚ) (zoom : ℚ) :
    ∀ e ∈ ((getClustersF P 1 (getClustersF P 1 st bb1 zoom).1 bb2
        zoom).1.bufEntries.take (getClustersF P 1 st bb1 zoom).2.length
      ++ (getClustersF P 1 (getClustersF P 1 st bb1 zoom).1 bb2 zoom).2),
      e.isC = false →
      e.posx = cfget st (2 * e.id) ∧ e.posy = cfget st (2 * e.id + 1) :=
  split_merge_good st.bufEntries (getClustersF P 1 st bb1 zoom)
    (getClustersF P 1 (getClustersF P 1 st bb1 zoom).1 bb2 zoom)
    (getClustersF_one_buf P st bb1 zoom)
    (getClustersF_one_buf P (getClustersF P 1 st bb1 zoom).1 bb2 zoom)
    _ (getClustersF_one_snd_good P st bb1 zoom)
    (getClustersF_one_snd_good2 P st bb1 bb2 zoom)

/-- Two-fuel unfolding of getClustersF (the fuel getClusters passes). -/
theorem getClustersF_two_eq (P : Proj) (st : Engine) (b0 b1 b2 b3 zoom : ℚ) :
    getClustersF P 2 st (b0, b1, b2, b3) zoom
      = (if 360 ≤ b2 - b0 then
          getClustersBody P st (-180) (max (-90) (min 90 b1)) 180
            (max (-90) (min 90 b3)) zoom
        else if (if b2 = 180 then 180 else normLng b2) < normLng b0 then
          ((getClustersF P 1
              (getClustersF P 1 st (normLng b0, max (-90) (min 90 b1), 180,
                max (-90) (min 90 b3)) zoom).1
              (-180, max (-90) (min 90 b1),
                (if b2 = 180 then 180 else normLng b2),
                max (-90) (min 90 b3)) zoom).1,
           (getClustersF P 1
              (getClustersF P 1 st (normLng b0, max (-90) (min 90 b1), 180,
                max (-90) (min 90 b3)) zoom).1
              (-180, max (-90) (min 90 b1),
                (if b2 = 180 then 180 else normLng b2),
                max (-90) (min 90 b3)) zoom).1.bufEntries.take
              (getClustersF P 1 st (normLng b0, max (-90) (min 90 b1), 180,
                max (-90) (min 90 b3)) zoom).2.length
            ++ (getClustersF P 1
                (getClustersF P 1 st (normLng b0, max (-90) (min 90 b1), 180,
                  max (-90) (min 90 b3)) zoom).1
                (-180, max (-90) (min 90 b1),
                  (if b2 = 180 then 180 else normLng b2),
                  max (-90) (min 90 b3)) zoom).2)
        else
          getClustersBody P st (normLng b0) (max (-90) (min 90 b1))
            (if b2 = 180 then 180 else normLng b2) (max (-90) (min 90 b3))
            zoom) := rfl

/-- Claim C8 (algebraic/relational, confirmed): every entry of getClusters
or getChildren flagged as a leaf (isCluster 0) reports the position read
from the caller's saved coordinate buffer at indices 2 * id and
2 * id + 1 — including the entries of the antimeridian split path, whose
merged prefix only ever holds entries the two sub-queries wrote. -/
theorem c8_leaf_positions_from_buffer (P : Proj) (st : Engine)
    (bbox : ℚ × ℚ × ℚ × ℚ) (zoom : ℚ) :
    (∀ e ∈ (getClusters P st bbox zoom).2, e.isC = false →
      e.posx = cfget st (2 * e.id) ∧ e.posy = cfget st (2 * e.id + 1)) ∧
    ∀ (clusterId : ℤ), ∀ e ∈ getChildren P st clusterId, e.isC = false →
      e.posx = cfget st (2 * e.id) ∧ e.posy = cfget st (2 * e.id + 1) := by
  constructor
  · obtain ⟨b0, b1, b2, b3⟩ := bbox
    show ∀ e ∈ (getClustersF P 2 st (b0, b1, b2, b3) zoom).2, _
    rw [getClustersF_two_eq]
    split
    · exact getClustersBody_snd_good P st _ _ _ _ zoom
    · split <;> split <;>
        first
          | exact getClusters_split_good P st _ _ zoom
          | exact getClustersBody_snd_good P st _ _ _ _ zoom
  · intro clusterId e he hc
    simp only [getChildren] at he
    obtain ⟨j, hj, rfl⟩ := List.mem_map.mp he
    exact mkEntry_leaf_pos P st _ j hc

end ArrowSupercluster
